import Mathlib

/-!
# clstm compute kernel: forward / backward primitives

A shallow embedding of `clstm_compute.cc`.  Tensors are index functions together
with their run-time dimensions; `Float` is an arbitrary commutative ring or linearly
ordered field `R` (exact arithmetic), instantiated at `ℚ` for concrete evaluations.  Every primitive
takes its reference arguments and returns all of them after the call, in the order
of the C++ parameter list; `none` stands for `abort()`, a failed `assert`, or an index
outside a sequence.  The primitives that can abort are modelled a second time with the
memory they leave at the abort (`Outcome`).
-/

namespace ocropus

open Finset

/-! ## Tensors and the Eigen expressions used by the kernel -/

/-- Rank-1 tensor: length and coefficients. -/
structure Tensor1 (R : Type) where
  size : Nat
  get : Nat → R

/-- Rank-2 tensor: `dimension(0)`, `dimension(1)` and coefficients. -/
structure Tensor2 (R : Type) where
  rows : Nat
  cols : Nat
  get : Nat → Nat → R

/-- Activation batch: value tensor `v` and gradient tensor `d`. -/
structure Batch (R : Type) where
  v : Tensor2 R
  d : Tensor2 R

/-- Parameter block: same storage as a batch (bias in column 0). -/
abbrev Params (R : Type) := Batch R

/-- Time sequence of batches. -/
abbrev Sequence (R : Type) := List (Batch R)

variable {R : Type}

/-- Method `Batch::rows()`. -/
def Batch.rows (b : Batch R) : Nat := b.v.rows

/-- Method `Batch::cols()`. -/
def Batch.cols (b : Batch R) : Nat := b.v.cols

namespace Tensor2

/-- Eigen `t.slice(indexes(r0, c0), indexes(nr, nc))` read as an expression. -/
def slice (t : Tensor2 R) (r0 c0 nr nc : Nat) : Tensor2 R :=
  ⟨nr, nc, fun i j => t.get (r0 + i) (c0 + j)⟩

/-- Eigen `t.chip(0, 1)`: column 0 as a rank-1 tensor. -/
def chip01 (t : Tensor2 R) : Tensor1 R :=
  ⟨t.rows, fun i => t.get i 0⟩

/-- Eigen `t.unaryExpr(f)`. -/
def unaryExpr (t : Tensor2 R) (f : R → R) : Tensor2 R :=
  ⟨t.rows, t.cols, fun i j => f (t.get i j)⟩

/-- Eigen `dst = src`: coefficients are overwritten, the dimensions of `dst` stay. -/
def assign (dst src : Tensor2 R) : Tensor2 R :=
  ⟨dst.rows, dst.cols, src.get⟩

/-- Eigen evaluates `a.contract(b, axispairs(1, 0))` only when axis 1 of `a` and axis 0
of `b` have the same size; on a mismatch the evaluation stops at an assertion of the
library, before any coefficient is assigned.  `forward_softmax` relies on this check for
the rows of its input; `forward_lin1` asserts the same condition itself, and the backward
primitives are described on well-shaped arguments by the coefficient formulas alone. -/
def contractible10 (a b : Tensor2 R) : Bool := decide (a.cols = b.rows)

/-- Eigen `dst.slice(indexes(r0, c0), indexes(nr, nc)) = src`. -/
def sliceAssign (dst : Tensor2 R) (r0 c0 nr nc : Nat) (src : Tensor2 R) : Tensor2 R :=
  ⟨dst.rows, dst.cols, fun i j =>
    if r0 ≤ i ∧ i < r0 + nr ∧ c0 ≤ j ∧ j < c0 + nc then src.get (i - r0) (j - c0)
    else dst.get i j⟩

section Ring
variable [CommRing R]

/-- Eigen `a.contract(b, axispairs(1, 0))`: `Σ_k a[i,k] * b[k,j]`, the coefficients of
the product when the paired axes agree (`contractible10`, which `forward_lin1` asserts
itself and `forward_softmax` leaves to the library). -/
def contract10 (a b : Tensor2 R) : Tensor2 R :=
  ⟨a.rows, b.cols, fun i j => ∑ k in range a.cols, a.get i k * b.get k j⟩

/-- Eigen `a.contract(b, axispairs(0, 0))`: `Σ_k a[k,i] * b[k,j]`. -/
def contract00 (a b : Tensor2 R) : Tensor2 R :=
  ⟨a.cols, b.cols, fun i j => ∑ k in range a.rows, a.get k i * b.get k j⟩

/-- Eigen `a.contract(b, axispairs(1, 1))`: `Σ_k a[i,k] * b[j,k]`. -/
def contract11 (a b : Tensor2 R) : Tensor2 R :=
  ⟨a.rows, b.rows, fun i j => ∑ k in range a.cols, a.get i k * b.get j k⟩

/-- Eigen `t.sum(indexes(1))`: sum over the batch axis. -/
def sum1 (t : Tensor2 R) : Tensor1 R :=
  ⟨t.rows, fun i => ∑ b in range t.cols, t.get i b⟩

/-- Eigen `t.sum(indexes(0))`: sum over the feature axis. -/
def sum0 (t : Tensor2 R) : Tensor1 R :=
  ⟨t.cols, fun b => ∑ i in range t.rows, t.get i b⟩

/-- Coefficient-wise `a + b`. -/
def add (a b : Tensor2 R) : Tensor2 R :=
  ⟨a.rows, a.cols, fun i j => a.get i j + b.get i j⟩

/-- Coefficient-wise `a * b`. -/
def mul (a b : Tensor2 R) : Tensor2 R :=
  ⟨a.rows, a.cols, fun i j => a.get i j * b.get i j⟩

/-- Coefficient-wise `-a`. -/
def neg (a : Tensor2 R) : Tensor2 R :=
  ⟨a.rows, a.cols, fun i j => - a.get i j⟩

/-- Coefficient-wise `a + c` for a scalar `c`. -/
def addScalar (a : Tensor2 R) (c : R) : Tensor2 R :=
  ⟨a.rows, a.cols, fun i j => a.get i j + c⟩

/-- Eigen `dst += src`. -/
def addAssign (dst src : Tensor2 R) : Tensor2 R :=
  ⟨dst.rows, dst.cols, fun i j => dst.get i j + src.get i j⟩

/-- Eigen `dst.slice(indexes(r0, c0), indexes(nr, nc)) += src`. -/
def sliceAddAssign (dst : Tensor2 R) (r0 c0 nr nc : Nat) (src : Tensor2 R) : Tensor2 R :=
  ⟨dst.rows, dst.cols, fun i j =>
    if r0 ≤ i ∧ i < r0 + nr ∧ c0 ≤ j ∧ j < c0 + nc then dst.get i j + src.get (i - r0) (j - c0)
    else dst.get i j⟩

/-- Eigen `dst.chip(0, 1) += vec`. -/
def chip01AddAssign (dst : Tensor2 R) (vec : Tensor1 R) : Tensor2 R :=
  ⟨dst.rows, dst.cols, fun i j => if j = 0 then dst.get i j + vec.get i else dst.get i j⟩

/-- Eigen `dst.slice(indexes(r0, c0), indexes(nr, nc)).setZero()`. -/
def sliceSetZero (dst : Tensor2 R) (r0 c0 nr nc : Nat) : Tensor2 R :=
  ⟨dst.rows, dst.cols, fun i j =>
    if r0 ≤ i ∧ i < r0 + nr ∧ c0 ≤ j ∧ j < c0 + nc then 0 else dst.get i j⟩

end Ring

/-- Coefficient-wise `a / b`. -/
def div [Field R] (a b : Tensor2 R) : Tensor2 R :=
  ⟨a.rows, a.cols, fun i j => a.get i j / b.get i j⟩

end Tensor2

namespace Tensor1

/-- Eigen `vec.reshape(indexes(n, 1)).broadcast(indexes(1, bs))`: a column repeated `bs` times. -/
def reshapeBroadcastCols (vec : Tensor1 R) (n bs : Nat) : Tensor2 R :=
  ⟨n, bs, fun i _ => vec.get i⟩

/-- Eigen `vec.reshape(indexes(1, bs)).broadcast(indexes(n, 1))`: a row repeated `n` times. -/
def reshapeBroadcastRows (vec : Tensor1 R) (bs n : Nat) : Tensor2 R :=
  ⟨n, bs, fun _ b => vec.get b⟩

end Tensor1

/-! ## Affine layer -/

section Affine
variable [CommRing R]

/-- Source `forward_lin1(dev, y, W1, x)`; returns `(y, W1, x)` after the call. -/
def forward_lin1 (y : Batch R) (W1 : Params R) (x : Batch R) :
    Option (Batch R × Params R × Batch R) :=
  let n := W1.v.rows
  let m := W1.v.cols
  let bs := x.v.cols
  if y.rows = n ∧ y.cols = x.cols ∧ (x.rows : Int) = (m : Int) - 1 then
    let e := ((W1.v.slice 0 1 n (m - 1)).contract10 x.v).add
      (W1.v.chip01.reshapeBroadcastCols n bs)
    some ({ y with v := y.v.assign e }, W1, x)
  else none

/-- Source `backward_lin1(dev, y, W1, x)`; returns `(y, W1, x)` after the call. -/
def backward_lin1 (y : Batch R) (W1 : Params R) (x : Batch R) :
    Batch R × Params R × Batch R :=
  let n := W1.v.rows
  let m := W1.v.cols
  let x1 : Batch R := { x with d := x.d.addAssign ((W1.v.slice 0 1 n (m - 1)).contract00 y.d) }
  let W2 : Params R := { W1 with d := W1.d.sliceAddAssign 0 1 n (m - 1) (y.d.contract11 x1.v) }
  let W3 : Params R := { W2 with d := W2.d.chip01AddAssign y.d.sum1 }
  (y, W3, x1)

end Affine

/-! ## Nonlinearities -/

/-- Scalar functions the kernel calls but does not define: the helpers `sigmoid` and
`limexp` of the header, libm `tanh`, and Eigen's coefficient-wise `.sigmoid()` and
`.tanh()` (`esigmoid`, `etanh`).  They are parameters of the embedding. -/
structure Numerics (R : Type) where
  sigmoid : R → R
  tanh : R → R
  limexp : R → R
  esigmoid : R → R
  etanh : R → R

/-- Source `struct Nonlinearity`. -/
structure Nonlinearity (R : Type) where
  nonlin : R → R
  yderiv : R → R
  xderiv : R → R

/-- Modelled from the spec: the nonlinearity codes of the header's enum,
identity=0, sigmoid=1, tanh=2, relu=3. -/
def LIN : Int := 0

/-- Modelled from the spec: code of the logistic sigmoid. -/
def SIG : Int := 1

/-- Modelled from the spec: code of the hyperbolic tangent. -/
def TANH : Int := 2

/-- Modelled from the spec: code of the rectified linear unit. -/
def RELU : Int := 3

section Nonlin
variable [LinearOrderedField R]

/-- Source `Nonlinearity nonlinearities[]`. -/
def nonlinearities (P : Numerics R) : List (Nonlinearity R) :=
  [ { nonlin := fun x => x,
      yderiv := fun _ => 1,
      xderiv := fun _ => 1 },
    { nonlin := fun x => P.sigmoid x,
      yderiv := fun y => y * (1 - y),
      xderiv := fun x => let y := P.sigmoid x; y * (1 - y) },
    { nonlin := fun x => P.tanh x,
      yderiv := fun y => 1 - y * y,
      xderiv := fun x => let y := P.tanh x; 1 - y * y },
    { nonlin := fun x => if x < 0 then 0 else x,
      yderiv := fun y => if y ≤ 0 then 0 else 1,
      xderiv := fun x => if x ≤ 0 then 0 else 1 } ]

/-- Source `forward_identity(dev, y, x)`; returns `(y, x)`. -/
def forward_identity (y x : Batch R) : Batch R × Batch R :=
  ({ y with v := y.v.assign x.v }, x)

/-- Source `forward_sigmoid(dev, y, x)`; returns `(y, x)`. -/
def forward_sigmoid (P : Numerics R) (y x : Batch R) : Batch R × Batch R :=
  ({ y with v := y.v.assign (x.v.unaryExpr P.esigmoid) }, x)

/-- Source `forward_tanh(dev, y, x)`; returns `(y, x)`. -/
def forward_tanh (P : Numerics R) (y x : Batch R) : Batch R × Batch R :=
  ({ y with v := y.v.assign (x.v.unaryExpr P.etanh) }, x)

/-- Source `forward_relu(dev, y, x)`; returns `(y, x)`. -/
def forward_relu (y x : Batch R) : Batch R × Batch R :=
  ({ y with v := y.v.assign (x.v.unaryExpr (fun x => if x ≤ 0 then 0 else x)) }, x)

/-- Source `forward_nonlin(dev, y, x, nl)`; returns `(y, x)`, `none` on `abort()`. -/
def forward_nonlin (P : Numerics R) (y x : Batch R) (nl : Int) : Option (Batch R × Batch R) :=
  if nl = LIN then some (forward_identity y x)
  else if nl = SIG then some (forward_sigmoid P y x)
  else if nl = TANH then some (forward_tanh P y x)
  else if nl = RELU then some (forward_relu y x)
  else none

/-- Source `backward_identity(dev, y)`. -/
def backward_identity (y : Batch R) : Batch R :=
  { y with d := y.d.assign y.d }

/-- Source `backward_sigmoid(dev, y)`. -/
def backward_sigmoid (y : Batch R) : Batch R :=
  { y with d := y.d.assign ((y.v.mul (y.v.neg.addScalar 1)).mul y.d) }

/-- Source `backward_tanh(dev, y)`. -/
def backward_tanh (y : Batch R) : Batch R :=
  { y with d := y.d.assign (((y.v.neg.mul y.v).addScalar 1).mul y.d) }

/-- Source `backward_relu(dev, y)`. -/
def backward_relu (y : Batch R) : Batch R :=
  { y with d := y.d.assign (y.d.mul (y.v.unaryExpr (fun y => if y ≤ 0 then 0 else 1))) }

/-- Source `backward_nonlin(dev, y, nl)`, the in-place form; `none` on `abort()`. -/
def backward_nonlin (y : Batch R) (nl : Int) : Option (Batch R) :=
  if nl = LIN then some (backward_identity y)
  else if nl = SIG then some (backward_sigmoid y)
  else if nl = TANH then some (backward_tanh y)
  else if nl = RELU then some (backward_relu y)
  else none

/-- Source `backward_identity(dev, y, x)`; returns `(y, x)`. -/
def backward_identity2 (y x : Batch R) : Batch R × Batch R :=
  (y, { x with d := x.d.addAssign y.d })

/-- Source `backward_sigmoid(dev, y, x)`; returns `(y, x)`. -/
def backward_sigmoid2 (y x : Batch R) : Batch R × Batch R :=
  (y, { x with d := x.d.addAssign ((y.v.mul (y.v.neg.addScalar 1)).mul y.d) })

/-- Source `backward_tanh(dev, y, x)`; returns `(y, x)`. -/
def backward_tanh2 (y x : Batch R) : Batch R × Batch R :=
  (y, { x with d := x.d.addAssign (((y.v.neg.mul y.v).addScalar 1).mul y.d) })

/-- Source `backward_relu(dev, y, x)`; returns `(y, x)`. -/
def backward_relu2 (y x : Batch R) : Batch R × Batch R :=
  let g := y.v.unaryExpr (fun y => if y ≤ 0 then 0 else 1)
  (y, { x with d := x.d.addAssign (y.d.mul g) })

/-- Source `backward_nonlin(dev, y, x, nl)`, the two-batch overload; returns `(y, x)`,
`none` on `abort()`. -/
def backward_nonlin2 (y x : Batch R) (nl : Int) : Option (Batch R × Batch R) :=
  if nl = LIN then some (backward_identity2 y x)
  else if nl = SIG then some (backward_sigmoid2 y x)
  else if nl = TANH then some (backward_tanh2 y x)
  else if nl = RELU then some (backward_relu2 y x)
  else none

/-! ## Softmax -/

/-- Source `forward_softmax(dev, z, W1, x)`; returns `(z, W1, x)`, `none` on a failed
`assert`.  The function does not assert `x.rows() == m-1` itself; the contraction of its
first assignment is evaluated only if the paired axes agree (`contractible10`), and the
call stops there otherwise. -/
def forward_softmax (P : Numerics R) (z : Batch R) (W1 : Params R) (x : Batch R) :
    Option (Batch R × Params R × Batch R) :=
  let f := P.limexp
  let n := W1.v.rows
  let m := W1.v.cols
  let bs := z.v.cols
  if n = z.v.rows ∧ 2 ≤ n then
    if (W1.v.slice 0 1 n (m - 1)).contractible10 x.v = true then
      let e := (((W1.v.slice 0 1 n (m - 1)).contract10 x.v).add
        (W1.v.chip01.reshapeBroadcastCols n bs)).unaryExpr f
      let z1 : Batch R := { z with v := z.v.assign e }
      let sums := z1.v.sum0
      if sums.size = bs then
        some ({ z1 with v := z1.v.assign (z1.v.div (sums.reshapeBroadcastRows bs n)) }, W1, x)
      else none
    else none
  else none

/-- Source `backward_softmax(dev, z, W1, x)`; returns `(z, W1, x)`. -/
def backward_softmax (z : Batch R) (W1 : Params R) (x : Batch R) :
    Batch R × Params R × Batch R :=
  let n := W1.v.rows
  let m := W1.v.cols
  let x1 : Batch R := { x with d := x.d.assign ((W1.v.slice 0 1 n (m - 1)).contract00 z.d) }
  let W2 : Params R := { W1 with d := W1.d.sliceAddAssign 0 1 n (m - 1) (z.d.contract11 x1.v) }
  let W3 : Params R := { W2 with d := W2.d.chip01AddAssign z.d.sum1 }
  (z, W3, x1)

/-! ## State memory and output gates -/

/-- Source `forward_statemem(dev, state, ci, gi, states, last, gf)`; returns
`(state, ci, gi, states, gf)`.  Indexing the sequence outside its length is `none`. -/
def forward_statemem (state ci gi : Batch R) (states : Sequence R) (last : Int) (gf : Batch R) :
    Option (Batch R × Batch R × Batch R × Sequence R × Batch R) := do
  let state1 : Batch R := { state with v := state.v.assign (ci.v.mul gi.v) }
  let state2 ← if 0 ≤ last then
      (states[last.toNat]?).map fun prev => { state1 with v := state1.v.addAssign (gf.v.mul prev.v) }
    else some state1
  pure (state2, ci, gi, states, gf)

/-- Source `backward_statemem(dev, state, ci, gi, states, last, gf)`; returns
`(state, ci, gi, states, gf)`.  Indexing the sequence outside its length is `none`. -/
def backward_statemem (state ci gi : Batch R) (states : Sequence R) (last : Int) (gf : Batch R) :
    Option (Batch R × Batch R × Batch R × Sequence R × Batch R) := do
  let states1 ← if 0 ≤ last then
      (states[last.toNat]?).map fun prev =>
        states.set last.toNat { prev with d := prev.d.addAssign (state.d.mul gf.v) }
    else some states
  let gf1 ← if 0 ≤ last then
      (states1[last.toNat]?).map fun prev => { gf with d := gf.d.addAssign (state.d.mul prev.v) }
    else some gf
  let gi1 : Batch R := { gi with d := gi.d.addAssign (state.d.mul ci.v) }
  let ci1 : Batch R := { ci with d := ci.d.addAssign (state.d.mul gi1.v) }
  pure (state, ci1, gi1, states1, gf1)

/-- Source `forward_gate(dev, out, nlstate, go)`; returns `(out, nlstate, go)`. -/
def forward_gate (out nlstate go : Batch R) : Batch R × Batch R × Batch R :=
  ({ out with v := out.v.assign (nlstate.v.mul go.v) }, nlstate, go)

/-- Source `backward_gate(dev, out, nlstate, go)`; returns `(out, nlstate, go)`. -/
def backward_gate (out nlstate go : Batch R) : Batch R × Batch R × Batch R :=
  let go1 : Batch R := { go with d := go.d.addAssign (nlstate.v.mul out.d) }
  let nlstate1 : Batch R := { nlstate with d := nlstate.d.addAssign (go1.v.mul out.d) }
  (out, nlstate1, go1)

/-- Source `forward_nonlingate(dev, out, state, go, nl)`, the enabled branch; returns
`(out, state, go)`.  `fresh r c` is the local `Batch temp` after `temp.resize(r, c)`. -/
def forward_nonlingate (P : Numerics R) (fresh : Nat → Nat → Batch R)
    (out state go : Batch R) (nl : Int) : Option (Batch R × Batch R × Batch R) := do
  let temp := fresh out.rows out.cols
  let (temp1, state1) ← forward_nonlin P temp state nl
  let (out1, _, go1) := forward_gate out temp1 go
  pure (out1, state1, go1)

/-- Source `forward_nonlingate`, the disabled branch: one expression through the table. -/
def forward_nonlingate_alt (P : Numerics R) (out state go : Batch R) (nl : Int) :
    Option (Batch R × Batch R × Batch R) := do
  let entry ← if 0 ≤ nl then (nonlinearities P)[nl.toNat]? else none
  let f := entry.nonlin
  pure ({ out with v := out.v.assign ((state.v.unaryExpr f).mul go.v) }, state, go)

/-- Source `backward_nonlingate(dev, out, state, go, nl)`, the enabled branch; returns
`(out, state, go)`.  `fresh r c` is the local `Batch temp` after `temp.resize(r, c)`. -/
def backward_nonlingate (P : Numerics R) (fresh : Nat → Nat → Batch R)
    (out state go : Batch R) (nl : Int) : Option (Batch R × Batch R × Batch R) := do
  let temp := fresh out.rows out.cols
  let (temp1, state1) ← forward_nonlin P temp state nl
  let (out1, temp2, go1) := backward_gate out temp1 go
  let (_, state2) ← backward_nonlin2 temp2 state1 nl
  pure (out1, state2, go1)

/-- Source `backward_nonlingate`, the disabled branch: direct formulas through the table. -/
def backward_nonlingate_alt (P : Numerics R) (out state go : Batch R) (nl : Int) :
    Option (Batch R × Batch R × Batch R) := do
  let entry ← if 0 ≤ nl then (nonlinearities P)[nl.toNat]? else none
  let f := entry.nonlin
  let g := entry.xderiv
  let go1 : Batch R := { go with d := go.d.addAssign ((state.v.unaryExpr f).mul out.d) }
  let e := ((state.v.unaryExpr g).mul go1.v).mul out.d
  let state1 : Batch R := { state with d := state.d.addAssign e }
  pure (out, state1, go1)

end Nonlin

/-! ## Full layer -/

section Full
variable [LinearOrderedField R]

/-- Source `forward_full1(dev, y, W1, x, nl)`, the enabled branch; returns `(y, W1, x)`.
The second call passes `y` for both parameters of `forward_nonlin`. -/
def forward_full1 (P : Numerics R) (y : Batch R) (W1 : Params R) (x : Batch R) (nl : Int) :
    Option (Batch R × Params R × Batch R) := do
  let (y1, W2, x1) ← forward_lin1 y W1 x
  let (y2, _) ← forward_nonlin P y1 y1 nl
  pure (y2, W2, x1)

/-- Source `forward_full1`, the disabled branch: the affine expression mapped through the
table's function in one assignment. -/
def forward_full1_alt (P : Numerics R) (y : Batch R) (W1 : Params R) (x : Batch R) (nl : Int) :
    Option (Batch R × Params R × Batch R) := do
  let entry ← if 0 ≤ nl then (nonlinearities P)[nl.toNat]? else none
  let f := entry.nonlin
  let n := W1.v.rows
  let m := W1.v.cols
  let bs := x.v.cols
  if y.rows = n ∧ y.cols = x.cols ∧ (x.rows : Int) = (m : Int) - 1 then
    let e := (((W1.v.slice 0 1 n (m - 1)).contract10 x.v).add
      (W1.v.chip01.reshapeBroadcastCols n bs)).unaryExpr f
    some ({ y with v := y.v.assign e }, W1, x)
  else none

/-- Source `backward_full1(dev, y, W1, x, nl)`, the enabled branch; returns `(y, W1, x)`. -/
def backward_full1 (y : Batch R) (W1 : Params R) (x : Batch R) (nl : Int) :
    Option (Batch R × Params R × Batch R) := do
  let y1 ← backward_nonlin y nl
  pure (backward_lin1 y1 W1 x)

/-- Source `backward_full1`, the disabled branch: the converted gradient is the local
tensor `temp`, and `y` is not written. -/
def backward_full1_alt (P : Numerics R) (y : Batch R) (W1 : Params R) (x : Batch R) (nl : Int) :
    Option (Batch R × Params R × Batch R) := do
  let entry ← if 0 ≤ nl then (nonlinearities P)[nl.toNat]? else none
  let g := entry.yderiv
  let n := W1.v.rows
  let m := W1.v.cols
  let temp := (y.v.unaryExpr g).mul y.d
  let x1 : Batch R := { x with d := x.d.addAssign ((W1.v.slice 0 1 n (m - 1)).contract00 temp) }
  let W2 : Params R := { W1 with d := W1.d.sliceAddAssign 0 1 n (m - 1) (temp.contract11 x1.v) }
  let W3 : Params R := { W2 with d := W2.d.chip01AddAssign temp.sum1 }
  pure (y, W3, x1)

end Full

/-! ## Stacking and sequence reversal -/

/-- Modelled from the spec: `Sequence::rows()` of the header.  All elements of a time
sequence share the feature dimension; it is read at element 0, as the source reads
`y[0].v.dimension(0)`. -/
def Sequence.rows (y : Sequence R) : Option Nat := (y[0]?).map Batch.rows

/-- Modelled from the spec: `Sequence::cols()` of the header.  All elements of a time
sequence share the batch size; it is read at element 0. -/
def Sequence.cols (y : Sequence R) : Option Nat := (y[0]?).map Batch.cols

/-- Body of the loop of `forward_reverse` at index `i`: `y[N - i - 1] = x[i]`, an
assignment of the whole batch; an index outside a sequence is `none`. -/
def forward_reverse_step (x : Sequence R) (N : Nat) (acc : Sequence R) (i : Nat) :
    Option (Sequence R) := do
  let xi ← x[i]?
  if N - i - 1 < acc.length then pure (acc.set (N - i - 1) xi) else none

/-- Source `forward_reverse(dev, y, x)`; returns `(y, x)`: the loop body for
`i = 0, ..., N - 1` with `N = x.size()`. -/
def forward_reverse (y x : Sequence R) : Option (Sequence R × Sequence R) := do
  let N := x.length
  let y1 ← (List.range N).foldlM (forward_reverse_step x N) y
  pure (y1, x)

section Stack
variable [CommRing R]

/-- Source `forward_stack(dev, z, x, y)`; returns `(z, x, y)`, `none` on a failed `assert`. -/
def forward_stack (z x y : Batch R) : Option (Batch R × Batch R × Batch R) :=
  let nx := x.v.rows
  let ny := y.v.rows
  let bs := x.v.cols
  if z.rows = x.rows + y.rows ∧ (z.cols = x.cols ∧ z.cols = y.cols) then
    let z1 : Batch R := { z with v := z.v.sliceAssign 0 0 nx bs x.v }
    let z2 : Batch R := { z1 with v := z1.v.sliceAssign nx 0 ny bs y.v }
    some (z2, x, y)
  else none

/-- Source `backward_stack(dev, z, x, y)`; returns `(z, x, y)`. -/
def backward_stack (z x y : Batch R) : Batch R × Batch R × Batch R :=
  let nx := x.v.rows
  let ny := y.v.rows
  let bs := x.v.cols
  let x1 : Batch R := { x with d := x.d.addAssign (z.d.slice 0 0 nx bs) }
  let y1 : Batch R := { y with d := y.d.addAssign (z.d.slice nx 0 ny bs) }
  (z, x1, y1)

/-- Source `forward_stack_delay(dev, z, x, y, last)`; returns `(z, x, y)`.  `none` on a
failed `assert` and on an index outside the sequence (`y[0]`, `y[last]`). -/
def forward_stack_delay (z x : Batch R) (y : Sequence R) (last : Int) :
    Option (Batch R × Batch R × Sequence R) := do
  let y0 ← y[0]?
  let nx := x.v.rows
  let ny := y0.v.rows
  let bs := x.v.cols
  let yrows ← Sequence.rows y
  let ycols ← Sequence.cols y
  if z.rows = x.rows + yrows ∧ (z.cols = x.cols ∧ z.cols = ycols) then
    let z1 : Batch R := { z with v := z.v.sliceAssign 0 0 nx bs x.v }
    if 0 ≤ last then
      let yl ← y[last.toNat]?
      pure ({ z1 with v := z1.v.sliceAssign nx 0 ny bs yl.v }, x, y)
    else
      pure ({ z1 with v := z1.v.sliceSetZero nx 0 ny bs }, x, y)
  else none

/-- Source `backward_stack_delay(dev, z, x, y, last)`; returns `(z, x, y)`.  An index
outside the sequence (`y[0]`, `y[last]`) is `none`. -/
def backward_stack_delay (z x : Batch R) (y : Sequence R) (last : Int) :
    Option (Batch R × Batch R × Sequence R) := do
  let y0 ← y[0]?
  let nx := x.v.rows
  let ny := y0.v.rows
  let bs := x.v.cols
  let x1 : Batch R := { x with d := x.d.addAssign (z.d.slice 0 0 nx bs) }
  if 0 ≤ last then
    let yl ← y[last.toNat]?
    let yl1 : Batch R := { yl with d := yl.d.addAssign (z.d.slice nx 0 ny bs) }
    pure (z, x1, y.set last.toNat yl1)
  else
    pure (z, x1, y)

/-- Body of the loop of `backward_reverse` at index `i`: `x[N - i - 1].d += y[i].d`; an
index outside a sequence is `none`. -/
def backward_reverse_step (y : Sequence R) (N : Nat) (acc : Sequence R) (i : Nat) :
    Option (Sequence R) := do
  let yi ← y[i]?
  let xt ← acc[N - i - 1]?
  pure (acc.set (N - i - 1) { xt with d := xt.d.addAssign yi.d })

/-- Source `backward_reverse(dev, y, x)`; returns `(y, x)`: the loop body for
`i = 0, ..., N - 1` with `N = x.size()`. -/
def backward_reverse (y x : Sequence R) : Option (Sequence R × Sequence R) := do
  let N := x.length
  let x1 ← (List.range N).foldlM (backward_reverse_step y N) x
  pure (y, x1)

end Stack

/-! ## Aborts and the memory they leave

The same primitives once more, for those that contain an `abort()` or an `assert`, with
the memory of the reference arguments kept when the call aborts. -/

/-- Outcome of a call on the memory `α` of its reference arguments: it returns with the
final memory, it aborts with the memory as it is at the `abort()` or failed `assert`, or
it indexes a sequence outside its length. -/
inductive Outcome (α : Type) where
  | done (mem : α) : Outcome α
  | aborted (mem : α) : Outcome α
  | undefined : Outcome α

section Trace
variable [LinearOrderedField R]

/-- Source `forward_nonlin(dev, y, x, nl)` with the memory at the `abort()` of the
default branch. -/
def forward_nonlin_trace (P : Numerics R) (y x : Batch R) (nl : Int) :
    Outcome (Batch R × Batch R) :=
  if nl = LIN then .done (forward_identity y x)
  else if nl = SIG then .done (forward_sigmoid P y x)
  else if nl = TANH then .done (forward_tanh P y x)
  else if nl = RELU then .done (forward_relu y x)
  else .aborted (y, x)

/-- Source `backward_nonlin(dev, y, nl)` with the memory at the `abort()` of the default
branch. -/
def backward_nonlin_trace (y : Batch R) (nl : Int) : Outcome (Batch R) :=
  if nl = LIN then .done (backward_identity y)
  else if nl = SIG then .done (backward_sigmoid y)
  else if nl = TANH then .done (backward_tanh y)
  else if nl = RELU then .done (backward_relu y)
  else .aborted y

/-- Source `backward_nonlin(dev, y, x, nl)` with the memory at the `abort()` of the
default branch. -/
def backward_nonlin2_trace (y x : Batch R) (nl : Int) : Outcome (Batch R × Batch R) :=
  if nl = LIN then .done (backward_identity2 y x)
  else if nl = SIG then .done (backward_sigmoid2 y x)
  else if nl = TANH then .done (backward_tanh2 y x)
  else if nl = RELU then .done (backward_relu2 y x)
  else .aborted (y, x)

/-- Source `forward_lin1(dev, y, W1, x)`: the three `assert`s come before the assignment. -/
def forward_lin1_trace (y : Batch R) (W1 : Params R) (x : Batch R) :
    Outcome (Batch R × Params R × Batch R) :=
  let n := W1.v.rows
  let m := W1.v.cols
  let bs := x.v.cols
  if y.rows = n ∧ y.cols = x.cols ∧ (x.rows : Int) = (m : Int) - 1 then
    let e := ((W1.v.slice 0 1 n (m - 1)).contract10 x.v).add
      (W1.v.chip01.reshapeBroadcastCols n bs)
    .done ({ y with v := y.v.assign e }, W1, x)
  else .aborted (y, W1, x)

/-- Source `forward_full1(dev, y, W1, x, nl)`, the enabled branch: `forward_lin1`, then
`forward_nonlin` on `y` in place; an abort of the second call finds `y` as the first
call left it. -/
def forward_full1_trace (P : Numerics R) (y : Batch R) (W1 : Params R) (x : Batch R)
    (nl : Int) : Outcome (Batch R × Params R × Batch R) :=
  match forward_lin1_trace y W1 x with
  | .done (y1, W2, x1) =>
    match forward_nonlin_trace P y1 y1 nl with
    | .done (y2, _) => .done (y2, W2, x1)
    | .aborted (ya, _) => .aborted (ya, W2, x1)
    | .undefined => .undefined
  | .aborted mem => .aborted mem
  | .undefined => .undefined

/-- Source `backward_full1(dev, y, W1, x, nl)`, the enabled branch: `backward_nonlin` in
place, then `backward_lin1`. -/
def backward_full1_trace (y : Batch R) (W1 : Params R) (x : Batch R) (nl : Int) :
    Outcome (Batch R × Params R × Batch R) :=
  match backward_nonlin_trace y nl with
  | .done y1 => .done (backward_lin1 y1 W1 x)
  | .aborted ya => .aborted (ya, W1, x)
  | .undefined => .undefined

/-- Source `forward_softmax(dev, z, W1, x)`: two `assert`s, the first assignment of
`z.v` (whose contraction is refused, before anything is written, when the paired axes
differ), the `assert` on the length of `sums`, the second assignment. -/
def forward_softmax_trace (P : Numerics R) (z : Batch R) (W1 : Params R) (x : Batch R) :
    Outcome (Batch R × Params R × Batch R) :=
  let f := P.limexp
  let n := W1.v.rows
  let m := W1.v.cols
  let bs := z.v.cols
  if n = z.v.rows ∧ 2 ≤ n then
    if (W1.v.slice 0 1 n (m - 1)).contractible10 x.v = true then
      let e := (((W1.v.slice 0 1 n (m - 1)).contract10 x.v).add
        (W1.v.chip01.reshapeBroadcastCols n bs)).unaryExpr f
      let z1 : Batch R := { z with v := z.v.assign e }
      let sums := z1.v.sum0
      if sums.size = bs then
        .done ({ z1 with v := z1.v.assign (z1.v.div (sums.reshapeBroadcastRows bs n)) }, W1, x)
      else .aborted (z1, W1, x)
    else .aborted (z, W1, x)
  else .aborted (z, W1, x)

/-- Source `forward_stack(dev, z, x, y)`: both `assert`s come before the assignments. -/
def forward_stack_trace (z x y : Batch R) : Outcome (Batch R × Batch R × Batch R) :=
  let nx := x.v.rows
  let ny := y.v.rows
  let bs := x.v.cols
  if z.rows = x.rows + y.rows ∧ (z.cols = x.cols ∧ z.cols = y.cols) then
    let z1 : Batch R := { z with v := z.v.sliceAssign 0 0 nx bs x.v }
    let z2 : Batch R := { z1 with v := z1.v.sliceAssign nx 0 ny bs y.v }
    .done (z2, x, y)
  else .aborted (z, x, y)

/-- Source `forward_stack_delay(dev, z, x, y, last)`: both `assert`s come before the
assignments; `y[0]` and `y[last]` outside the sequence are `undefined`. -/
def forward_stack_delay_trace (z x : Batch R) (y : Sequence R) (last : Int) :
    Outcome (Batch R × Batch R × Sequence R) :=
  match y[0]? with
  | none => .undefined
  | some y0 =>
    let nx := x.v.rows
    let ny := y0.v.rows
    let bs := x.v.cols
    if z.rows = x.rows + y0.rows ∧ (z.cols = x.cols ∧ z.cols = y0.cols) then
      let z1 : Batch R := { z with v := z.v.sliceAssign 0 0 nx bs x.v }
      if 0 ≤ last then
        match y[last.toNat]? with
        | none => .undefined
        | some yl => .done ({ z1 with v := z1.v.sliceAssign nx 0 ny bs yl.v }, x, y)
      else
        .done ({ z1 with v := z1.v.sliceSetZero nx 0 ny bs }, x, y)
    else .aborted (z, x, y)

/-- Source `forward_nonlingate(dev, out, state, go, nl)`, the enabled branch:
`forward_nonlin` into the local `temp`, then `forward_gate`. -/
def forward_nonlingate_trace (P : Numerics R) (fresh : Nat → Nat → Batch R)
    (out state go : Batch R) (nl : Int) : Outcome (Batch R × Batch R × Batch R) :=
  let temp := fresh out.rows out.cols
  match forward_nonlin_trace P temp state nl with
  | .done (temp1, state1) =>
    let res := forward_gate out temp1 go
    .done (res.1, state1, res.2.2)
  | .aborted (_, sa) => .aborted (out, sa, go)
  | .undefined => .undefined

/-- Source `backward_nonlingate(dev, out, state, go, nl)`, the enabled branch:
`forward_nonlin` into the local `temp`, `backward_gate`, then the two-batch
`backward_nonlin`. -/
def backward_nonlingate_trace (P : Numerics R) (fresh : Nat → Nat → Batch R)
    (out state go : Batch R) (nl : Int) : Outcome (Batch R × Batch R × Batch R) :=
  let temp := fresh out.rows out.cols
  match forward_nonlin_trace P temp state nl with
  | .done (temp1, state1) =>
    let res := backward_gate out temp1 go
    match backward_nonlin2_trace res.2.1 state1 nl with
    | .done (_, state2) => .done (res.1, state2, res.2.2)
    | .aborted (_, sa) => .aborted (res.1, sa, res.2.2)
    | .undefined => .undefined
  | .aborted (_, sa) => .aborted (out, sa, go)
  | .undefined => .undefined

end Trace

/-! ## Concrete data used for evaluation -/

/-- Constant tensor. -/
def Tensor2.const (r c : Nat) (a : R) : Tensor2 R := ⟨r, c, fun _ _ => a⟩

/-- Batch with constant value and constant gradient. -/
def Batch.const (r c : Nat) (a g : R) : Batch R := ⟨Tensor2.const r c a, Tensor2.const r c g⟩

/-- Stand-ins over `ℚ` for the external scalar functions: rational, strictly positive
`limexp`, and one sigmoid and one tanh shared by the helper and the Eigen form. -/
def numQ : Numerics ℚ where
  sigmoid := fun x => 1 / (1 + x * x)
  tanh := fun x => x / (1 + x * x)
  limexp := fun x => 1 + x * x
  esigmoid := fun x => 1 / (1 + x * x)
  etanh := fun x => x / (1 + x * x)

/-- Rational stand-in for `exp`: positive, increasing, `expQ 0 = 1` and
`expQ (-u) = 1 / expQ u`. -/
def expQ (u : ℚ) : ℚ := if 0 ≤ u then 1 + u else 1 / (1 - u)

/-- Modelled from the spec: the header's bounded exponential `limexp`, a saturating
exponential that clamps extreme magnitudes (here the argument, to `[-30, 30]`), with
`expQ` standing in for `exp`. -/
def limexpQ (u : ℚ) : ℚ := expQ (max (-30) (min u 30))

/-- Modelled from the spec: numeric helpers over `ℚ` in which the table's `sigmoid` is the
header's saturating one, built on the bounded exponential, while Eigen's coefficient-wise
`.sigmoid()` is the logistic function of the unclamped exponential; the two agree on
`[-30, 30]` and differ outside. -/
def numSat : Numerics ℚ where
  sigmoid := fun u => 1 / (1 + limexpQ (-u))
  tanh := fun u => (expQ u - expQ (-u)) / (expQ u + expQ (-u))
  limexp := limexpQ
  esigmoid := fun u => 1 / (1 + expQ (-u))
  etanh := fun u => (expQ u - expQ (-u)) / (expQ u + expQ (-u))

/-! ## The scalar probe of the gradient check -/

/-- Sum of all coefficients of a tensor. -/
def Tensor2.sumAll [CommRing R] (t : Tensor2 R) : R :=
  ∑ i in range t.rows, ∑ b in range t.cols, t.get i b

/-- The tensor `t + eps * E` with `E` the unit tensor at coordinate `(i, j)`. -/
def Tensor2.bump [CommRing R] (t : Tensor2 R) (i j : Nat) (eps : R) : Tensor2 R :=
  ⟨t.rows, t.cols, fun i1 j1 => if i1 = i ∧ j1 = j then t.get i1 j1 + eps else t.get i1 j1⟩

/-- The batch with value `v + eps * E` and the same gradient. -/
def Batch.bumpV [CommRing R] (b : Batch R) (i j : Nat) (eps : R) : Batch R :=
  { b with v := b.v.bump i j eps }

/-- The probe `P(W, x)`: the sum of all entries of the `y.v` written by `forward_lin1`. -/
def probe_lin1 [CommRing R] (y : Batch R) (W : Params R) (x : Batch R) : Option R :=
  (forward_lin1 y W x).map fun res => res.1.v.sumAll

/-- Both tensors of the batch have dimensions `[r, c]`. -/
def Batch.Shaped (b : Batch R) (r c : Nat) : Prop :=
  b.v.rows = r ∧ b.v.cols = c ∧ b.d.rows = r ∧ b.d.cols = c

/-- Parameter block `[2, 3]` over `ℚ`: value `W[i,k] = 1 + i + 2k`, gradient `10 i + k`. -/
def exW : Params ℚ := ⟨⟨2, 3, fun i k => 1 + i + 2 * k⟩, ⟨2, 3, fun i k => 10 * i + k⟩⟩

/-- Input batch `[2, 2]` over `ℚ`: value `x[j,b] = 1 + j + 3b`, gradient `5 + j + b`. -/
def exX : Batch ℚ := ⟨⟨2, 2, fun j b => 1 + j + 3 * b⟩, ⟨2, 2, fun j b => 5 + j + b⟩⟩

/-- Output batch `[2, 2]` over `ℚ`: value `7`, gradient `y.d[i,b] = 1 + 2i + b`. -/
def exY : Batch ℚ := ⟨⟨2, 2, fun _ _ => 7⟩, ⟨2, 2, fun i b => 1 + 2 * i + b⟩⟩

/-- Example `exW` with zero gradient. -/
def exW0 : Params ℚ := ⟨exW.v, Tensor2.const 2 3 0⟩

/-- Example `exX` with zero gradient. -/
def exX0 : Batch ℚ := ⟨exX.v, Tensor2.const 2 2 0⟩

/-- Example `exY` with gradient all ones. -/
def exY1 : Batch ℚ := ⟨exY.v, Tensor2.const 2 2 1⟩

/-- Output batch `[1, 1]` over `ℚ` with value `1` and gradient `1`. -/
def ycex : Batch ℚ := Batch.const 1 1 1 1

/-- Input batch `[1, 1]` over `ℚ` with value `-1` and gradient `0`. -/
def xcex : Batch ℚ := Batch.const 1 1 (-1) 0

/-- Output batch `[1, 1]` over `ℚ` with value `0 = relu (-1)` and gradient `1`. -/
def yrelu : Batch ℚ := Batch.const 1 1 0 1

/-- Scratch batch over `ℚ` whose value and gradient are zero after `resize`. -/
def freshQ : Nat → Nat → Batch ℚ := fun r c => Batch.const r c 0 0

/-- Destination batch `[4, 2]` over `ℚ`: value `9`, gradient `z.d[i,b] = 100 + 10 i + b`. -/
def exZ : Batch ℚ := ⟨⟨4, 2, fun _ _ => 9⟩, ⟨4, 2, fun i b => 100 + 10 * i + b⟩⟩

/-- Sequence of two `[2, 2]` batches over `ℚ`. -/
def exSeq : Sequence ℚ := [exY, exX]

/-- Sequence of three `[1, 1]` batches over `ℚ` with values `1, 2, 3` and gradients
`10, 20, 30`. -/
def exSeq3 : Sequence ℚ := [Batch.const 1 1 1 10, Batch.const 1 1 2 20, Batch.const 1 1 3 30]

/-- Sequence of three `[1, 1]` batches over `ℚ` with value `0` and gradient `0`. -/
def exSeq0 : Sequence ℚ := [Batch.const 1 1 0 0, Batch.const 1 1 0 0, Batch.const 1 1 0 0]

set_option linter.unusedVariables false

section AffineTheorems
variable [CommRing R]

/-- C1: `backward_lin1` accumulates all three gradients.  For `W` of shape `[n, m]` with
`m ≥ 1`, `x` of shape `[m-1, bs]` and `y` of shape `[n, bs]`, whatever the gradients held
before: `x.d[j,b]` grows by `Σ_i W.v[i,j+1] * y.d[i,b]`, `W.d[i,j+1]` grows by
`Σ_b y.d[i,b] * x.v[j,b]`, and `W.d[i,0]` grows by `Σ_b y.d[i,b]`. -/
theorem backward_lin1_accumulates (y : Batch R) (W : Params R) (x : Batch R) (n m bs : Nat)
    (hm : 1 ≤ m) (hW : W.Shaped n m) (hx : x.Shaped (m - 1) bs) (hy : y.Shaped n bs) :
    (∀ j b, j < m - 1 → b < bs →
      (backward_lin1 y W x).2.2.d.get j b
        = x.d.get j b + ∑ i in range n, W.v.get i (j + 1) * y.d.get i b) ∧
    (∀ i j, i < n → j < m - 1 →
      (backward_lin1 y W x).2.1.d.get i (j + 1)
        = W.d.get i (j + 1) + ∑ b in range bs, y.d.get i b * x.v.get j b) ∧
    (∀ i, i < n →
      (backward_lin1 y W x).2.1.d.get i 0 = W.d.get i 0 + ∑ b in range bs, y.d.get i b) := by
  obtain ⟨hWr, hWc, -, -⟩ := hW
  obtain ⟨-, -, -, hyc⟩ := hy
  refine ⟨?_, ?_, ?_⟩
  · intro j b _ _
    simp [backward_lin1, Tensor2.addAssign, Tensor2.contract00, Tensor2.slice, hWr, add_comm 1 j]
  · intro i j hi hj
    have h1 : i < W.v.rows := by omega
    have h2 : j + 1 < 1 + (W.v.cols - 1) := by omega
    simp [backward_lin1, Tensor2.sliceAddAssign, Tensor2.chip01AddAssign, Tensor2.contract11,
      h1, h2, hyc]
  · intro i _
    simp [backward_lin1, Tensor2.sliceAddAssign, Tensor2.chip01AddAssign, Tensor2.sum1, hyc]

/-- C1 at `exW`, `exX`, `exY` (`n = 2`, `m = 3`, `bs = 2`). -/
theorem backward_lin1_accumulates_witness :
    (∀ j b, j < 3 - 1 → b < 2 →
      (backward_lin1 exY exW exX).2.2.d.get j b
        = exX.d.get j b + ∑ i in range 2, exW.v.get i (j + 1) * exY.d.get i b) ∧
    (∀ i j, i < 2 → j < 3 - 1 →
      (backward_lin1 exY exW exX).2.1.d.get i (j + 1)
        = exW.d.get i (j + 1) + ∑ b in range 2, exY.d.get i b * exX.v.get j b) ∧
    (∀ i, i < 2 →
      (backward_lin1 exY exW exX).2.1.d.get i 0
        = exW.d.get i 0 + ∑ b in range 2, exY.d.get i b) :=
  backward_lin1_accumulates exY exW exX 2 3 2 (by decide)
    ⟨rfl, rfl, rfl, rfl⟩ ⟨rfl, rfl, rfl, rfl⟩ ⟨rfl, rfl, rfl, rfl⟩

/-- C2: `forward_lin1` computes the affine map with the bias in column 0.  For `W` of
shape `[n, m]`, `x` of shape `[m-1, bs]` and `y` of shape `[n, bs]` the call completes,
leaves `W` and `x` as they were, and writes
`y.v[i,b] = W.v[i,0] + Σ_{j<m-1} W.v[i,j+1] * x.v[j,b]`, whatever `y.v` held before. -/
theorem forward_lin1_affine (y : Batch R) (W : Params R) (x : Batch R) (n m bs : Nat)
    (hm : 1 ≤ m) (hW : W.Shaped n m) (hx : x.Shaped (m - 1) bs) (hy : y.Shaped n bs) :
    ∃ y1 : Batch R, forward_lin1 y W x = some (y1, W, x) ∧
      ∀ i b, i < n → b < bs →
        y1.v.get i b = W.v.get i 0 + ∑ j in range (m - 1), W.v.get i (j + 1) * x.v.get j b := by
  obtain ⟨hWr, hWc, -, -⟩ := hW
  obtain ⟨hxr, hxc, -, -⟩ := hx
  obtain ⟨hyr, hyc, -, -⟩ := hy
  have hcond : y.rows = W.v.rows ∧ y.cols = x.cols ∧ (x.rows : Int) = (W.v.cols : Int) - 1 := by
    refine ⟨?_, ?_, ?_⟩
    · simp [Batch.rows, hyr, hWr]
    · simp [Batch.cols, hyc, hxc]
    · simp only [Batch.rows, hxr, hWc]
      omega
  simp only [forward_lin1, hcond, and_self, if_true]
  refine ⟨_, rfl, ?_⟩
  intro i b _ _
  simp [Tensor2.assign, Tensor2.add, Tensor2.contract10, Tensor2.slice,
    Tensor2.chip01, Tensor1.reshapeBroadcastCols, hWc, add_comm]

/-- C2 at `exW`, `exX`, `exY`: the call completes and every entry of the new `y.v` is
the affine expression; the old content `7` of `y.v` plays no part. -/
theorem forward_lin1_affine_witness :
    ∃ y1 : Batch ℚ, forward_lin1 exY exW exX = some (y1, exW, exX) ∧
      ∀ i b, i < 2 → b < 2 →
        y1.v.get i b
          = exW.v.get i 0 + ∑ j in range (3 - 1), exW.v.get i (j + 1) * exX.v.get j b :=
  forward_lin1_affine exY exW exX 2 3 2 (by decide)
    ⟨rfl, rfl, rfl, rfl⟩ ⟨rfl, rfl, rfl, rfl⟩ ⟨rfl, rfl, rfl, rfl⟩

end AffineTheorems

section GateTheorems
variable [LinearOrderedField R]

/-- C3: `forward_statemem` is the LSTM memory update.  For same-shaped batches, if
`last ≥ 0` (and `states[last]` exists) then `state.v = ci.v * gi.v + gf.v * states[last].v`
elementwise; if `last < 0` then `state.v = ci.v * gi.v`, an expression in which neither
`gf` nor the sequence occurs.  Nothing else is modified. -/
theorem forward_statemem_update (state ci gi gf : Batch R) (states : Sequence R) (last : Int)
    (r c : Nat) (hs : state.Shaped r c) (hci : ci.Shaped r c) (hgi : gi.Shaped r c)
    (hgf : gf.Shaped r c) :
    (∀ prev : Batch R, 0 ≤ last → states[last.toNat]? = some prev → prev.Shaped r c →
      ∃ s1 : Batch R, forward_statemem state ci gi states last gf = some (s1, ci, gi, states, gf) ∧
        ∀ i b, i < r → b < c →
          s1.v.get i b = ci.v.get i b * gi.v.get i b + gf.v.get i b * prev.v.get i b) ∧
    (last < 0 →
      ∃ s1 : Batch R, forward_statemem state ci gi states last gf = some (s1, ci, gi, states, gf) ∧
        ∀ i b, i < r → b < c → s1.v.get i b = ci.v.get i b * gi.v.get i b) := by
  refine ⟨?_, ?_⟩
  · intro prev h0 hprev _
    refine ⟨_, by simp [forward_statemem, h0, hprev]; rfl, ?_⟩
    intro i b _ _
    simp [Tensor2.assign, Tensor2.addAssign, Tensor2.mul]
  · intro hneg
    have h0 : ¬ (0 ≤ last) := by omega
    refine ⟨_, by simp [forward_statemem, h0]; rfl, ?_⟩
    intro i b _ _
    simp [Tensor2.assign, Tensor2.mul]

/-- C3 on the worked example: candidate `1/2`, input gate `4/5`, forget gate `3/10`,
previous state `1` give state `7/10`, whatever `state.v` held before (here `9`). -/
theorem forward_statemem_update_witness :
    (forward_statemem (Batch.const 1 1 (9 : ℚ) 0) (Batch.const 1 1 (1 / 2) 0)
        (Batch.const 1 1 (4 / 5) 0) [Batch.const 1 1 1 0] 0 (Batch.const 1 1 (3 / 10) 0)).map
      (fun res => res.1.v.get 0 0) = some (7 / 10) := by
  obtain ⟨s1, hrun, hval⟩ :=
    (forward_statemem_update (Batch.const 1 1 (9 : ℚ) 0) (Batch.const 1 1 (1 / 2) 0)
      (Batch.const 1 1 (4 / 5) 0) (Batch.const 1 1 (3 / 10) 0) [Batch.const 1 1 1 0] 0 1 1
      ⟨rfl, rfl, rfl, rfl⟩ ⟨rfl, rfl, rfl, rfl⟩ ⟨rfl, rfl, rfl, rfl⟩ ⟨rfl, rfl, rfl, rfl⟩).1
      (Batch.const 1 1 1 0) (le_refl 0) rfl ⟨rfl, rfl, rfl, rfl⟩
  rw [hrun, Option.map_some', hval 0 0 (by decide) (by decide)]
  norm_num [Batch.const, Tensor2.const]

/-- The result of `backward_statemem` when a previous time step exists. -/
theorem backward_statemem_run (state ci gi gf : Batch R) (states : Sequence R) (last : Int)
    (prev : Batch R) (h0 : 0 ≤ last) (hprev : states[last.toNat]? = some prev) :
    backward_statemem state ci gi states last gf
      = some (state, Batch.mk ci.v (ci.d.addAssign (state.d.mul gi.v)),
          Batch.mk gi.v (gi.d.addAssign (state.d.mul ci.v)),
          states.set last.toNat (Batch.mk prev.v (prev.d.addAssign (state.d.mul gf.v))),
          Batch.mk gf.v (gf.d.addAssign (state.d.mul prev.v))) := by
  have hlt : last.toNat < states.length := by
    rcases List.getElem?_eq_some.mp hprev with ⟨h, -⟩
    exact h
  simp [backward_statemem, h0, hprev, hlt]

/-- The result of `backward_statemem` at the sequence boundary. -/
theorem backward_statemem_first (state ci gi gf : Batch R) (states : Sequence R) (last : Int)
    (hneg : last < 0) :
    backward_statemem state ci gi states last gf
      = some (state, Batch.mk ci.v (ci.d.addAssign (state.d.mul gi.v)),
          Batch.mk gi.v (gi.d.addAssign (state.d.mul ci.v)), states, gf) := by
  have h0 : ¬ (0 ≤ last) := by omega
  simp [backward_statemem, h0]

/-- C4: `backward_statemem` performs exactly four accumulations.  For same-shaped
batches and arbitrary prior gradients: `gi.d += state.d * ci.v` and
`ci.d += state.d * gi.v`; if `last ≥ 0` then `states[last].d += state.d * gf.v` and
`gf.d += state.d * states[last].v`, every other element of the sequence staying as it
was; if `last < 0` then `gf` and the whole sequence are unchanged.  `state` and all
value tensors are unchanged. -/
theorem backward_statemem_accumulates (state ci gi gf : Batch R) (states : Sequence R)
    (last : Int) (r c : Nat) (hs : state.Shaped r c) (hci : ci.Shaped r c)
    (hgi : gi.Shaped r c) (hgf : gf.Shaped r c) :
    (∀ prev : Batch R, 0 ≤ last → states[last.toNat]? = some prev → prev.Shaped r c →
      ∃ (ci1 gi1 gf1 prev1 : Batch R) (states1 : Sequence R),
        backward_statemem state ci gi states last gf = some (state, ci1, gi1, states1, gf1) ∧
        ci1.v = ci.v ∧ gi1.v = gi.v ∧ gf1.v = gf.v ∧ prev1.v = prev.v ∧
        states1.length = states.length ∧ states1[last.toNat]? = some prev1 ∧
        (∀ k, k ≠ last.toNat → states1[k]? = states[k]?) ∧
        ∀ i b, i < r → b < c →
          gi1.d.get i b = gi.d.get i b + state.d.get i b * ci.v.get i b ∧
          ci1.d.get i b = ci.d.get i b + state.d.get i b * gi.v.get i b ∧
          prev1.d.get i b = prev.d.get i b + state.d.get i b * gf.v.get i b ∧
          gf1.d.get i b = gf.d.get i b + state.d.get i b * prev.v.get i b) ∧
    (last < 0 →
      ∃ ci1 gi1 : Batch R,
        backward_statemem state ci gi states last gf = some (state, ci1, gi1, states, gf) ∧
        ci1.v = ci.v ∧ gi1.v = gi.v ∧
        ∀ i b, i < r → b < c →
          gi1.d.get i b = gi.d.get i b + state.d.get i b * ci.v.get i b ∧
          ci1.d.get i b = ci.d.get i b + state.d.get i b * gi.v.get i b) := by
  refine ⟨?_, ?_⟩
  · intro prev h0 hprev _
    have hlt : last.toNat < states.length := by
      rcases List.getElem?_eq_some.mp hprev with ⟨h, -⟩
      exact h
    refine ⟨_, _, _, Batch.mk prev.v (prev.d.addAssign (state.d.mul gf.v)), _,
      backward_statemem_run state ci gi gf states last prev h0 hprev,
      rfl, rfl, rfl, rfl, by simp, by simp [hlt], ?_, ?_⟩
    · intro k hk
      simp [List.getElem?_set, Ne.symm hk]
    · intro i b _ _
      simp [Tensor2.addAssign, Tensor2.mul]
  · intro hneg
    refine ⟨_, _, backward_statemem_first state ci gi gf states last hneg, rfl, rfl, ?_⟩
    intro i b _ _
    simp [Tensor2.addAssign, Tensor2.mul]

/-- C4 on the worked example: candidate `1/2`, input gate `4/5`, forget gate `3/10`,
previous state `1`, `d(state) = 1`, every prior gradient `2`.  The gradients of the
candidate, the input gate, the previous state and the forget gate become
`2 + 4/5`, `2 + 1/2`, `2 + 3/10` and `2 + 1`. -/
theorem backward_statemem_accumulates_witness :
    (backward_statemem (Batch.const 1 1 (7 / 10 : ℚ) 1) (Batch.const 1 1 (1 / 2) 2)
        (Batch.const 1 1 (4 / 5) 2) [Batch.const 1 1 1 2] 0 (Batch.const 1 1 (3 / 10) 2)).map
      (fun res => (res.2.1.d.get 0 0, res.2.2.1.d.get 0 0,
        (res.2.2.2.1[0]?).map (fun p => p.d.get 0 0), res.2.2.2.2.d.get 0 0))
      = some (2 + 4 / 5, 2 + 1 / 2, some (2 + 3 / 10), 2 + 1) := by
  obtain ⟨ci1, gi1, gf1, prev1, states1, hrun, -, -, -, -, -, hget, -, hval⟩ :=
    (backward_statemem_accumulates (Batch.const 1 1 (7 / 10 : ℚ) 1) (Batch.const 1 1 (1 / 2) 2)
      (Batch.const 1 1 (4 / 5) 2) (Batch.const 1 1 (3 / 10) 2) [Batch.const 1 1 1 2] 0 1 1
      ⟨rfl, rfl, rfl, rfl⟩ ⟨rfl, rfl, rfl, rfl⟩ ⟨rfl, rfl, rfl, rfl⟩ ⟨rfl, rfl, rfl, rfl⟩).1
      (Batch.const 1 1 1 2) (le_refl 0) rfl ⟨rfl, rfl, rfl, rfl⟩
  obtain ⟨h1, h2, h3, h4⟩ := hval 0 0 (by decide) (by decide)
  have hget0 : states1[0]? = some prev1 := hget
  rw [hrun]
  simp only [Option.map_some', hget0, h1, h2, h3, h4]
  norm_num [Batch.const, Tensor2.const]

end GateTheorems

section SoftmaxTheorems
variable [LinearOrderedField R]

/-- C5, the code at `exW`, `exX`, `exY` (`z := exY`): the prior input gradient
`x.d[0,0] = 5` does not survive `backward_softmax`; the result is the bare product
`Σ_i W.v[i,1] * z.d[i,0] = 15`, where accumulation would give `20`.  The two
parameter-gradient statements do accumulate: `W.d[1,2]` goes from `12` to `38` and
`W.d[1,0]` from `10` to `17`. -/
theorem backward_softmax_overwrites_input_gradient :
    exX.d.get 0 0 = 5 ∧
    (backward_softmax exY exW exX).2.2.d.get 0 0 = 15 ∧
    exX.d.get 0 0 + ∑ i in range 2, exW.v.get i (0 + 1) * exY.d.get i 0 = 20 ∧
    (backward_softmax exY exW exX).2.1.d.get 1 2
      = exW.d.get 1 2 + ∑ b in range 2, exY.d.get 1 b * exX.v.get 1 b ∧
    (backward_softmax exY exW exX).2.1.d.get 1 0
      = exW.d.get 1 0 + ∑ b in range 2, exY.d.get 1 b := by
  refine ⟨?_, ?_, ?_, ?_, ?_⟩ <;>
  · simp [backward_softmax, exW, exX, exY, Tensor2.assign, Tensor2.contract00, Tensor2.slice,
      Tensor2.sliceAddAssign, Tensor2.chip01AddAssign, Tensor2.contract11, Tensor2.sum1,
      Finset.sum_range_succ]
    try norm_num

/-- C6: `forward_softmax` yields a probability distribution in every batch column.
For `W` of shape `[n, m]` with `n ≥ 2`, `x` of shape `[m-1, bs]`, `z` of shape `[n, bs]`
and a strictly positive `limexp`, the call completes and, with
`a[i,b] = Σ_j W.v[i,j+1] * x.v[j,b] + W.v[i,0]`, every column `b` has a non-zero divisor
`Σ_k limexp a[k,b]`, entries `z.v[i,b] = limexp a[i,b] / Σ_k limexp a[k,b]`, all of them
non-negative, and column sum `1`. -/
theorem forward_softmax_distribution (P : Numerics R) (z : Batch R) (W : Params R) (x : Batch R)
    (n m bs : Nat) (hn : 2 ≤ n) (hW : W.Shaped n m) (hx : x.Shaped (m - 1) bs)
    (hz : z.Shaped n bs) (hpos : ∀ u, 0 < P.limexp u) :
    ∃ z1 : Batch R, forward_softmax P z W x = some (z1, W, x) ∧
      ∀ b, b < bs →
        (∑ k in range n, P.limexp
            (∑ j in range (m - 1), W.v.get k (j + 1) * x.v.get j b + W.v.get k 0)) ≠ 0 ∧
        (∀ i, i < n → z1.v.get i b
          = P.limexp (∑ j in range (m - 1), W.v.get i (j + 1) * x.v.get j b + W.v.get i 0)
            / ∑ k in range n, P.limexp
                (∑ j in range (m - 1), W.v.get k (j + 1) * x.v.get j b + W.v.get k 0)) ∧
        (∀ i, i < n → 0 ≤ z1.v.get i b) ∧
        ∑ i in range n, z1.v.get i b = 1 := by
  obtain ⟨hWr, hWc, -, -⟩ := hW
  obtain ⟨hzr, hzc, -, -⟩ := hz
  have hcond : W.v.rows = z.v.rows ∧ 2 ≤ W.v.rows := by
    rw [hWr, hzr]
    exact ⟨rfl, hn⟩
  have hrun : ∃ z1 : Batch R, forward_softmax P z W x = some (z1, W, x) ∧
      ∀ i b, z1.v.get i b
        = P.limexp (∑ j in range (m - 1), W.v.get i (j + 1) * x.v.get j b + W.v.get i 0)
          / ∑ k in range n, P.limexp
              (∑ j in range (m - 1), W.v.get k (j + 1) * x.v.get j b + W.v.get k 0) := by
    have hcontr : (W.v.slice 0 1 W.v.rows (W.v.cols - 1)).contractible10 x.v = true := by
      simp [Tensor2.contractible10, Tensor2.slice, hWc, hx.1]
    unfold forward_softmax
    dsimp only
    rw [if_pos hcond, if_pos hcontr]
    have hsize : ∀ e : Tensor2 R, (Tensor2.sum0 (Tensor2.assign z.v e)).size = z.v.cols :=
      fun _ => rfl
    simp only [hsize, if_true]
    refine ⟨_, rfl, ?_⟩
    intro i b
    simp [Tensor2.assign, Tensor2.div, Tensor2.add, Tensor2.contract10, Tensor2.slice,
      Tensor2.chip01, Tensor2.unaryExpr, Tensor2.sum0, Tensor1.reshapeBroadcastCols,
      Tensor1.reshapeBroadcastRows, hWc, hzr, add_comm 1]
  obtain ⟨z1, hz1, hval⟩ := hrun
  refine ⟨z1, hz1, ?_⟩
  intro b _
  have hS : 0 < ∑ k in range n, P.limexp
      (∑ j in range (m - 1), W.v.get k (j + 1) * x.v.get j b + W.v.get k 0) :=
    Finset.sum_pos (fun k _ => hpos _) ⟨0, by simp; omega⟩
  refine ⟨ne_of_gt hS, fun i _ => hval i b, ?_, ?_⟩
  · intro i _
    rw [hval i b]
    exact div_nonneg (le_of_lt (hpos _)) (le_of_lt hS)
  · simp only [hval]
    rw [← Finset.sum_div, div_self (ne_of_gt hS)]

/-- C6 at `exW`, `exX`, `exY` with the positive stand-in `numQ.limexp`. -/
theorem forward_softmax_distribution_witness :
    ∃ z1 : Batch ℚ, forward_softmax numQ exY exW exX = some (z1, exW, exX) ∧
      ∀ b, b < 2 →
        (∑ k in range 2, numQ.limexp
            (∑ j in range (3 - 1), exW.v.get k (j + 1) * exX.v.get j b + exW.v.get k 0)) ≠ 0 ∧
        (∀ i, i < 2 → z1.v.get i b
          = numQ.limexp
              (∑ j in range (3 - 1), exW.v.get i (j + 1) * exX.v.get j b + exW.v.get i 0)
            / ∑ k in range 2, numQ.limexp
                (∑ j in range (3 - 1), exW.v.get k (j + 1) * exX.v.get j b + exW.v.get k 0)) ∧
        (∀ i, i < 2 → 0 ≤ z1.v.get i b) ∧
        ∑ i in range 2, z1.v.get i b = 1 :=
  forward_softmax_distribution numQ exY exW exX 2 3 2 (by decide)
    ⟨rfl, rfl, rfl, rfl⟩ ⟨rfl, rfl, rfl, rfl⟩ ⟨rfl, rfl, rfl, rfl⟩
    (fun u => by
      show (0 : ℚ) < 1 + u * u
      nlinarith [mul_self_nonneg u])

end SoftmaxTheorems

section GradientCheck
variable [LinearOrderedField R]

/-- The probe in closed form, for valid shapes. -/
theorem probe_lin1_eq (y : Batch R) (W : Params R) (x : Batch R) (n m bs : Nat)
    (hm : 1 ≤ m) (hW : W.Shaped n m) (hx : x.Shaped (m - 1) bs) (hy : y.Shaped n bs) :
    probe_lin1 y W x = some (∑ i in range n, ∑ b in range bs,
      (∑ j in range (m - 1), W.v.get i (j + 1) * x.v.get j b + W.v.get i 0)) := by
  obtain ⟨hWr, hWc, -, -⟩ := hW
  obtain ⟨hxr, hxc, -, -⟩ := hx
  obtain ⟨hyr, hyc, -, -⟩ := hy
  have hcond : y.rows = W.v.rows ∧ y.cols = x.cols ∧ (x.rows : Int) = (W.v.cols : Int) - 1 := by
    refine ⟨?_, ?_, ?_⟩
    · simp [Batch.rows, hyr, hWr]
    · simp [Batch.cols, hyc, hxc]
    · simp only [Batch.rows, hxr, hWc]
      omega
  unfold probe_lin1 forward_lin1
  dsimp only
  rw [if_pos hcond]
  simp [Tensor2.sumAll, Tensor2.assign, Tensor2.add, Tensor2.contract10, Tensor2.slice,
    Tensor2.chip01, Tensor1.reshapeBroadcastCols, hWc, hyr, hyc, add_comm 1]

/-- Moving one input coordinate by `e` moves the affine sum by `e * Σ_i w[i,j]`. -/
theorem affine_sum_bump_x (w : Nat → Nat → R) (c : Nat → R) (xv : Nat → Nat → R)
    (n k bs j b : Nat) (e : R) (hj : j < k) (hb : b < bs) :
    ∑ i in range n, ∑ b1 in range bs,
        (∑ j1 in range k, w i j1 * (if j1 = j ∧ b1 = b then xv j1 b1 + e else xv j1 b1) + c i)
      = ∑ i in range n, ∑ b1 in range bs, (∑ j1 in range k, w i j1 * xv j1 b1 + c i)
        + e * ∑ i in range n, w i j := by
  have hterm : ∀ i b1 j1, w i j1 * (if j1 = j ∧ b1 = b then xv j1 b1 + e else xv j1 b1)
      = w i j1 * xv j1 b1 + (if j1 = j then (if b1 = b then w i j * e else 0) else 0) := by
    intro i b1 j1
    by_cases h1 : j1 = j <;> by_cases h2 : b1 = b <;> simp [h1, h2, mul_add]
  simp only [hterm, Finset.sum_add_distrib, Finset.sum_ite_eq', Finset.mem_range, hj, hb,
    if_true, Finset.mul_sum]
  have hc : ∑ i in range n, w i j * e = ∑ i in range n, e * w i j :=
    Finset.sum_congr rfl (fun i _ => mul_comm _ _)
  rw [hc]
  ring

/-- Moving one weight coordinate `(i0, j0 + 1)` by `e` moves the affine sum by
`e * Σ_b x[j0,b]`. -/
theorem affine_sum_bump_w (w : Nat → Nat → R) (xv : Nat → Nat → R)
    (n k bs i0 j0 : Nat) (e : R) (hi : i0 < n) (hj : j0 < k) :
    ∑ i in range n, ∑ b in range bs,
        (∑ j in range k, (if i = i0 ∧ j + 1 = j0 + 1 then w i (j + 1) + e else w i (j + 1))
            * xv j b
          + (if i = i0 ∧ 0 = j0 + 1 then w i 0 + e else w i 0))
      = ∑ i in range n, ∑ b in range bs, (∑ j in range k, w i (j + 1) * xv j b + w i 0)
        + e * ∑ b in range bs, xv j0 b := by
  have hterm : ∀ i b j,
      (if i = i0 ∧ j + 1 = j0 + 1 then w i (j + 1) + e else w i (j + 1)) * xv j b
      = w i (j + 1) * xv j b + (if j = j0 then (if i = i0 then e * xv j0 b else 0) else 0) := by
    intro i b j
    by_cases h1 : j = j0 <;> by_cases h2 : i = i0 <;> simp [h1, h2, add_mul]
  have hbias : ∀ i, (if i = i0 ∧ 0 = j0 + 1 then w i 0 + e else w i 0) = w i 0 := by
    intro i
    simp
  simp only [hterm, hbias, Finset.sum_add_distrib, Finset.sum_ite_eq', Finset.mem_range, hj,
    if_true]
  have hswap : ∑ i in range n, ∑ b in range bs, (if i = i0 then e * xv j0 b else 0)
      = e * ∑ b in range bs, xv j0 b := by
    rw [Finset.sum_comm]
    simp only [Finset.sum_ite_eq', Finset.mem_range, hi, if_true, Finset.mul_sum]
  rw [hswap]
  ring

/-- Moving one bias coordinate `(i0, 0)` by `e` moves the affine sum by `e * bs`. -/
theorem affine_sum_bump_bias (w : Nat → Nat → R) (xv : Nat → Nat → R)
    (n k bs i0 : Nat) (e : R) (hi : i0 < n) :
    ∑ i in range n, ∑ b in range bs,
        (∑ j in range k, (if i = i0 ∧ j + 1 = 0 then w i (j + 1) + e else w i (j + 1))
            * xv j b
          + (if i = i0 ∧ 0 = 0 then w i 0 + e else w i 0))
      = ∑ i in range n, ∑ b in range bs, (∑ j in range k, w i (j + 1) * xv j b + w i 0)
        + e * (bs : R) := by
  have hbias : ∀ i, (if i = i0 then w i 0 + e else w i 0)
      = w i 0 + (if i = i0 then e else 0) := by
    intro i
    by_cases h : i = i0 <;> simp [h]
  have hswap : ∑ i in range n, ∑ _b in range bs, (if i = i0 then e else 0) = e * (bs : R) := by
    rw [Finset.sum_comm]
    simp [Finset.sum_ite_eq', hi, mul_comm]
  simp only [Nat.succ_ne_zero, and_false, if_false, and_true, hbias, Finset.sum_add_distrib]
  rw [hswap]
  ring

/-- C7: the gradients of `backward_lin1` are the central differences of the probe
`P(W, x)` = sum of all entries of the `y.v` written by `forward_lin1`, exactly.  With
valid shapes, `y.d` all ones and `x.d`, `W.d` zero before the call, for every `eps ≠ 0`:
`x.d[j,b] = (P(W, x + eps E_jb) - P(W, x - eps E_jb)) / (2 eps)` for every input
coordinate and `W.d[i,k] = (P(W + eps E_ik, x) - P(W - eps E_ik, x)) / (2 eps)` for every
parameter coordinate, the bias column `k = 0` included. -/
theorem lin1_gradient_is_central_difference (y : Batch R) (W : Params R) (x : Batch R)
    (n m bs : Nat) (hm : 1 ≤ m) (hW : W.Shaped n m) (hx : x.Shaped (m - 1) bs)
    (hy : y.Shaped n bs)
    (hyd : ∀ i b, i < n → b < bs → y.d.get i b = 1)
    (hxd : ∀ j b, j < m - 1 → b < bs → x.d.get j b = 0)
    (hWd : ∀ i k, i < n → k < m → W.d.get i k = 0)
    (eps : R) (heps : eps ≠ 0) :
    (∀ j b, j < m - 1 → b < bs →
      ∃ pp pm : R, probe_lin1 y W (x.bumpV j b eps) = some pp ∧
        probe_lin1 y W (x.bumpV j b (-eps)) = some pm ∧
        (backward_lin1 y W x).2.2.d.get j b = (pp - pm) / (2 * eps)) ∧
    (∀ i k, i < n → k < m →
      ∃ pp pm : R, probe_lin1 y (W.bumpV i k eps) x = some pp ∧
        probe_lin1 y (W.bumpV i k (-eps)) x = some pm ∧
        (backward_lin1 y W x).2.1.d.get i k = (pp - pm) / (2 * eps)) := by
  have h2 : (2 : R) * eps ≠ 0 := mul_ne_zero two_ne_zero heps
  have hWr : W.v.rows = n := hW.1
  have hWc : W.v.cols = m := hW.2.1
  have hyc : y.d.cols = bs := hy.2.2.2
  refine ⟨?_, ?_⟩
  · intro j b hj hb
    have hp : ∀ e : R, probe_lin1 y W (x.bumpV j b e)
        = some (∑ i in range n, ∑ b1 in range bs,
            (∑ j1 in range (m - 1), W.v.get i (j1 + 1) * x.v.get j1 b1 + W.v.get i 0)
          + e * ∑ i in range n, W.v.get i (j + 1)) := by
      intro e
      rw [probe_lin1_eq y W (x.bumpV j b e) n m bs hm hW hx hy]
      simp only [Batch.bumpV, Tensor2.bump]
      rw [affine_sum_bump_x (fun i j1 => W.v.get i (j1 + 1)) (fun i => W.v.get i 0) x.v.get
        n (m - 1) bs j b e hj hb]
    have hd : (backward_lin1 y W x).2.2.d.get j b = ∑ i in range n, W.v.get i (j + 1) := by
      have hsum : ∑ i in range n, W.v.get i (j + 1) * y.d.get i b
          = ∑ i in range n, W.v.get i (j + 1) :=
        Finset.sum_congr rfl (fun i hi => by
          rw [hyd i b (Finset.mem_range.mp hi) hb, mul_one])
      simp [backward_lin1, Tensor2.addAssign, Tensor2.contract00, Tensor2.slice, hWr,
        add_comm 1 j, hxd j b hj hb, hsum]
    refine ⟨_, _, hp eps, hp (-eps), ?_⟩
    rw [hd]
    field_simp
    ring
  · intro i k hi hk
    rcases Nat.eq_zero_or_pos k with hk0 | hkpos
    · subst hk0
      have hp : ∀ e : R, probe_lin1 y (W.bumpV i 0 e) x
          = some (∑ i1 in range n, ∑ b in range bs,
              (∑ j in range (m - 1), W.v.get i1 (j + 1) * x.v.get j b + W.v.get i1 0)
            + e * (bs : R)) := by
        intro e
        rw [probe_lin1_eq y (W.bumpV i 0 e) x n m bs hm hW hx hy]
        exact congrArg some (affine_sum_bump_bias W.v.get x.v.get n (m - 1) bs i e hi)
      have hd : (backward_lin1 y W x).2.1.d.get i 0 = (bs : R) := by
        have hsum : ∑ b in range bs, y.d.get i b = (bs : R) := by
          rw [Finset.sum_congr rfl (fun b hb => hyd i b hi (Finset.mem_range.mp hb))]
          simp
        simp [backward_lin1, Tensor2.sliceAddAssign, Tensor2.chip01AddAssign, Tensor2.sum1,
          hyc, hWd i 0 hi hk, hsum]
      refine ⟨_, _, hp eps, hp (-eps), ?_⟩
      rw [hd]
      field_simp
      ring
    · obtain ⟨j0, rfl⟩ : ∃ j0, k = j0 + 1 := ⟨k - 1, by omega⟩
      have hj0 : j0 < m - 1 := by omega
      have hp : ∀ e : R, probe_lin1 y (W.bumpV i (j0 + 1) e) x
          = some (∑ i1 in range n, ∑ b in range bs,
              (∑ j in range (m - 1), W.v.get i1 (j + 1) * x.v.get j b + W.v.get i1 0)
            + e * ∑ b in range bs, x.v.get j0 b) := by
        intro e
        rw [probe_lin1_eq y (W.bumpV i (j0 + 1) e) x n m bs hm hW hx hy]
        simp only [Batch.bumpV, Tensor2.bump]
        rw [affine_sum_bump_w W.v.get x.v.get n (m - 1) bs i j0 e hi hj0]
      have hd : (backward_lin1 y W x).2.1.d.get i (j0 + 1) = ∑ b in range bs, x.v.get j0 b := by
        have hsum : ∑ b in range bs, y.d.get i b * x.v.get j0 b
            = ∑ b in range bs, x.v.get j0 b :=
          Finset.sum_congr rfl (fun b hb => by
            rw [hyd i b hi (Finset.mem_range.mp hb), one_mul])
        have h1 : i < W.v.rows := by omega
        have h2 : j0 + 1 < 1 + (W.v.cols - 1) := by omega
        simp [backward_lin1, Tensor2.sliceAddAssign, Tensor2.chip01AddAssign,
          Tensor2.contract11, h1, h2, hyc, hWd i (j0 + 1) hi hk, hsum]
      refine ⟨_, _, hp eps, hp (-eps), ?_⟩
      rw [hd]
      field_simp
      ring

/-- C7 at `exW0`, `exX0`, `exY1` with step `1/2`. -/
theorem lin1_gradient_is_central_difference_witness :
    (∀ j b, j < 3 - 1 → b < 2 →
      ∃ pp pm : ℚ, probe_lin1 exY1 exW0 (exX0.bumpV j b (1 / 2)) = some pp ∧
        probe_lin1 exY1 exW0 (exX0.bumpV j b (-(1 / 2))) = some pm ∧
        (backward_lin1 exY1 exW0 exX0).2.2.d.get j b = (pp - pm) / (2 * (1 / 2))) ∧
    (∀ i k, i < 2 → k < 3 →
      ∃ pp pm : ℚ, probe_lin1 exY1 (exW0.bumpV i k (1 / 2)) exX0 = some pp ∧
        probe_lin1 exY1 (exW0.bumpV i k (-(1 / 2))) exX0 = some pm ∧
        (backward_lin1 exY1 exW0 exX0).2.1.d.get i k = (pp - pm) / (2 * (1 / 2))) :=
  lin1_gradient_is_central_difference exY1 exW0 exX0 2 3 2 (by decide)
    ⟨rfl, rfl, rfl, rfl⟩ ⟨rfl, rfl, rfl, rfl⟩ ⟨rfl, rfl, rfl, rfl⟩
    (fun _ _ _ _ => rfl) (fun _ _ _ _ => rfl) (fun _ _ _ _ => rfl) (1 / 2) (by norm_num)

end GradientCheck

section NonlinTheorems
variable [LinearOrderedField R]

/-- C8: the in-place `backward_nonlin` converts the gradient from the forward output
alone.  For each of the four codes the call completes, leaves `y.v` as it was and sets
`y.d[i,b] = g(y.v[i,b]) * y.d_old[i,b]` with `g = 1` (identity), `g v = v * (1 - v)`
(sigmoid), `g v = 1 - v * v` (tanh), `g v = 1` if `v > 0` else `0` (relu).  The identity
code is an exact no-op: the in-place backward returns the batch itself, and
`forward_nonlin` with the identity code copies `x.v` into `y.v`. -/
theorem backward_nonlin_inplace (P : Numerics R) (y x : Batch R) :
    (∃ y1 : Batch R, backward_nonlin y LIN = some y1 ∧ y1.v = y.v ∧
      ∀ i b, y1.d.get i b = 1 * y.d.get i b) ∧
    (∃ y1 : Batch R, backward_nonlin y SIG = some y1 ∧ y1.v = y.v ∧
      ∀ i b, y1.d.get i b = (y.v.get i b * (1 - y.v.get i b)) * y.d.get i b) ∧
    (∃ y1 : Batch R, backward_nonlin y TANH = some y1 ∧ y1.v = y.v ∧
      ∀ i b, y1.d.get i b = (1 - y.v.get i b * y.v.get i b) * y.d.get i b) ∧
    (∃ y1 : Batch R, backward_nonlin y RELU = some y1 ∧ y1.v = y.v ∧
      ∀ i b, y1.d.get i b = (if 0 < y.v.get i b then 1 else 0) * y.d.get i b) ∧
    backward_nonlin y LIN = some y ∧
    (∃ y1 : Batch R, forward_nonlin P y x LIN = some (y1, x) ∧ y1.d = y.d ∧
      y1.v.rows = y.v.rows ∧ y1.v.cols = y.v.cols ∧ ∀ i b, y1.v.get i b = x.v.get i b) := by
  refine ⟨⟨backward_identity y, rfl, rfl, ?_⟩, ⟨backward_sigmoid y, rfl, rfl, ?_⟩,
    ⟨backward_tanh y, rfl, rfl, ?_⟩, ⟨backward_relu y, rfl, rfl, ?_⟩, rfl,
    ⟨(forward_identity y x).1, rfl, rfl, rfl, rfl, fun _ _ => rfl⟩⟩
  · intro i b
    simp [backward_identity, Tensor2.assign]
  · intro i b
    simp only [backward_sigmoid, Tensor2.assign, Tensor2.mul, Tensor2.neg, Tensor2.addScalar]
    ring
  · intro i b
    simp only [backward_tanh, Tensor2.assign, Tensor2.mul, Tensor2.neg, Tensor2.addScalar]
    ring
  · intro i b
    simp only [backward_relu, Tensor2.assign, Tensor2.mul, Tensor2.unaryExpr]
    by_cases h : y.v.get i b ≤ 0
    · simp [h, not_lt.mpr h]
    · simp [h, not_le.mp h]

/-- C9 as stated fails: with the relu code, `y.v = 1`, `y.d = 1`, `x.v = -1` and
`x.d = 0`, the two-batch `backward_nonlin` yields `x.d = 1`, while the derivative taken
at the input gives `x.d_old + h(x.v) * y.d = 0`. -/
theorem backward_nonlin2_input_operand_counterexample :
    ∃ x1 : Batch ℚ, backward_nonlin2 ycex xcex RELU = some (ycex, x1) ∧
      x1.d.get 0 0 = 1 ∧
      xcex.d.get 0 0 + (if 0 < xcex.v.get 0 0 then 1 else 0) * ycex.d.get 0 0 = 0 ∧
      x1.d.get 0 0
        ≠ xcex.d.get 0 0 + (if 0 < xcex.v.get 0 0 then 1 else 0) * ycex.d.get 0 0 := by
  refine ⟨(backward_relu2 ycex xcex).2, rfl, ?_, ?_, ?_⟩ <;>
    norm_num [backward_relu2, ycex, xcex, Batch.const, Tensor2.const, Tensor2.addAssign,
      Tensor2.mul, Tensor2.unaryExpr]

/-- A code with a row in `nonlinearities` is one of the four codes, with that row. -/
theorem table_entry_cases (P : Numerics R) (nl : Int) (entry : Nonlinearity R) (hnl : 0 ≤ nl)
    (hentry : (nonlinearities P)[nl.toNat]? = some entry) :
    (nl = LIN ∧ entry = ⟨fun x => x, fun _ => 1, fun _ => 1⟩) ∨
    (nl = SIG ∧ entry = ⟨fun x => P.sigmoid x, fun y => y * (1 - y),
      fun x => P.sigmoid x * (1 - P.sigmoid x)⟩) ∨
    (nl = TANH ∧ entry = ⟨fun x => P.tanh x, fun y => 1 - y * y,
      fun x => 1 - P.tanh x * P.tanh x⟩) ∨
    (nl = RELU ∧ entry = ⟨fun x => if x < 0 then 0 else x, fun y => if y ≤ 0 then 0 else 1,
      fun x => if x ≤ 0 then 0 else 1⟩) := by
  have hlt : nl.toNat < 4 := by
    rcases List.getElem?_eq_some.mp hentry with ⟨h, -⟩
    simpa [nonlinearities] using h
  have hcases : nl = 0 ∨ nl = 1 ∨ nl = 2 ∨ nl = 3 := by omega
  rcases hcases with rfl | rfl | rfl | rfl
  · left
    refine ⟨rfl, ?_⟩
    simpa [nonlinearities] using hentry.symm
  · right; left
    refine ⟨rfl, ?_⟩
    simpa [nonlinearities] using hentry.symm
  · right; right; left
    refine ⟨rfl, ?_⟩
    simpa [nonlinearities] using hentry.symm
  · right; right; right
    refine ⟨rfl, ?_⟩
    simpa [nonlinearities] using hentry.symm

/-- C9, amended: the two-batch `backward_nonlin` reads the cached forward output.  For
every valid code `nl`, with `entry` its row of `nonlinearities`, and same-shaped batches
`y`, `x`, the call completes, leaves `y` and `x.v` as they were, and sets
`x.d[i,b] = x.d_old[i,b] + entry.yderiv (y.v[i,b]) * y.d[i,b]`.  Whenever `y.v` is the
row's forward function of `x.v`, this is `x.d_old[i,b] + entry.xderiv (x.v[i,b]) * y.d[i,b]`. -/
theorem backward_nonlin2_output_operand (P : Numerics R) (y x : Batch R) (nl : Int)
    (entry : Nonlinearity R) (r c : Nat) (hnl : 0 ≤ nl)
    (hentry : (nonlinearities P)[nl.toNat]? = some entry)
    (hy : y.Shaped r c) (hx : x.Shaped r c) :
    ∃ x1 : Batch R, backward_nonlin2 y x nl = some (y, x1) ∧ x1.v = x.v ∧
      (∀ i b, i < r → b < c →
        x1.d.get i b = x.d.get i b + entry.yderiv (y.v.get i b) * y.d.get i b) ∧
      ((∀ i b, i < r → b < c → y.v.get i b = entry.nonlin (x.v.get i b)) →
        ∀ i b, i < r → b < c →
          x1.d.get i b = x.d.get i b + entry.xderiv (x.v.get i b) * y.d.get i b) := by
  rcases table_entry_cases P nl entry hnl hentry with ⟨rfl, rfl⟩ | ⟨rfl, rfl⟩ | ⟨rfl, rfl⟩ |
    ⟨rfl, rfl⟩
  · refine ⟨(backward_identity2 y x).2, rfl, rfl, ?_, ?_⟩
    · intro i b _ _
      simp [backward_identity2, Tensor2.addAssign]
    · intro _ i b _ _
      simp [backward_identity2, Tensor2.addAssign]
  · have hd : ∀ i b, (backward_sigmoid2 y x).2.d.get i b
        = x.d.get i b + y.v.get i b * (1 - y.v.get i b) * y.d.get i b := by
      intro i b
      simp only [backward_sigmoid2, Tensor2.addAssign, Tensor2.mul, Tensor2.neg,
        Tensor2.addScalar]
      ring
    refine ⟨(backward_sigmoid2 y x).2, rfl, rfl, fun i b _ _ => hd i b, ?_⟩
    intro hfwd i b hi hb
    rw [hd i b, hfwd i b hi hb]
  · have hd : ∀ i b, (backward_tanh2 y x).2.d.get i b
        = x.d.get i b + (1 - y.v.get i b * y.v.get i b) * y.d.get i b := by
      intro i b
      simp only [backward_tanh2, Tensor2.addAssign, Tensor2.mul, Tensor2.neg,
        Tensor2.addScalar]
      ring
    refine ⟨(backward_tanh2 y x).2, rfl, rfl, fun i b _ _ => hd i b, ?_⟩
    intro hfwd i b hi hb
    rw [hd i b, hfwd i b hi hb]
  · have hd : ∀ i b, (backward_relu2 y x).2.d.get i b
        = x.d.get i b + (if y.v.get i b ≤ 0 then 0 else 1) * y.d.get i b := by
      intro i b
      simp only [backward_relu2, Tensor2.addAssign, Tensor2.mul, Tensor2.unaryExpr]
      ring
    refine ⟨(backward_relu2 y x).2, rfl, rfl, fun i b _ _ => hd i b, ?_⟩
    intro hfwd i b hi hb
    rw [hd i b, hfwd i b hi hb]
    by_cases h : x.v.get i b ≤ 0
    · by_cases h0 : x.v.get i b < 0
      · simp [h, h0]
      · simp [h, h0]
    · have h0 : ¬ x.v.get i b < 0 := fun hlt => h (le_of_lt hlt)
      simp [h, h0]

/-- C9 amended, at the relu code with `x.v = -1`, `x.d = 0` and `y.v = relu (-1) = 0`,
`y.d = 1`: the call completes and `x.d` stays `0`. -/
theorem backward_nonlin2_output_operand_witness :
    ∃ x1 : Batch ℚ, backward_nonlin2 yrelu xcex RELU = some (yrelu, x1) ∧ x1.d.get 0 0 = 0 := by
  obtain ⟨x1, hrun, -, -, hcons⟩ :=
    backward_nonlin2_output_operand numQ yrelu xcex RELU
      ((nonlinearities numQ).get ⟨3, by decide⟩) 1 1 (by decide) rfl
      ⟨rfl, rfl, rfl, rfl⟩ ⟨rfl, rfl, rfl, rfl⟩
  refine ⟨x1, hrun, ?_⟩
  rw [hcons (fun i b _ _ => by
    norm_num [yrelu, xcex, Batch.const, Tensor2.const, nonlinearities]) 0 0
    (by decide) (by decide)]
  norm_num [yrelu, xcex, Batch.const, Tensor2.const, nonlinearities]

/-- For a valid code `forward_nonlin` completes and maps one scalar function `f` over
`x.v`. -/
theorem forward_nonlin_applied (P : Numerics R) (nl : Int) (entry : Nonlinearity R)
    (hnl : 0 ≤ nl) (hentry : (nonlinearities P)[nl.toNat]? = some entry) :
    ∃ f : R → R,
      ((nl = LIN → f = fun u => u) ∧ (nl = SIG → f = P.esigmoid) ∧
        (nl = TANH → f = P.etanh) ∧ (nl = RELU → f = fun u => if u ≤ 0 then 0 else u)) ∧
      (nl = LIN ∨ nl = RELU → f = entry.nonlin) ∧
      (∀ u, entry.yderiv (entry.nonlin u) = entry.xderiv u) ∧
      ∀ y x : Batch R, forward_nonlin P y x nl
        = some (Batch.mk (Tensor2.mk y.v.rows y.v.cols (fun i j => f (x.v.get i j))) y.d, x) := by
  have hrelu : ∀ u : R, (if u ≤ 0 then 0 else u) = (if u < 0 then 0 else u) := by
    intro u
    by_cases h : u ≤ 0
    · by_cases h0 : u < 0
      · simp [h, h0]
      · simp [h, h0, le_antisymm h (not_lt.mp h0)]
    · have h0 : ¬ u < 0 := fun hlt => h (le_of_lt hlt)
      simp [h, h0]
  rcases table_entry_cases P nl entry hnl hentry with ⟨rfl, rfl⟩ | ⟨rfl, rfl⟩ | ⟨rfl, rfl⟩ |
    ⟨rfl, rfl⟩
  · refine ⟨fun u => u, ⟨fun _ => rfl, fun h => absurd h (by decide),
      fun h => absurd h (by decide), fun h => absurd h (by decide)⟩, fun _ => rfl,
      fun _ => rfl, ?_⟩
    intro y x
    simp [forward_nonlin, forward_identity, Tensor2.assign]
  · refine ⟨P.esigmoid, ⟨fun h => absurd h (by decide), fun _ => rfl,
      fun h => absurd h (by decide), fun h => absurd h (by decide)⟩,
      fun h => absurd h (by decide), fun _ => rfl, ?_⟩
    intro y x
    simp [forward_nonlin, LIN, SIG, forward_sigmoid, Tensor2.assign, Tensor2.unaryExpr]
  · refine ⟨P.etanh, ⟨fun h => absurd h (by decide), fun h => absurd h (by decide),
      fun _ => rfl, fun h => absurd h (by decide)⟩,
      fun h => absurd h (by decide), fun _ => rfl, ?_⟩
    intro y x
    simp [forward_nonlin, LIN, SIG, TANH, forward_tanh, Tensor2.assign, Tensor2.unaryExpr]
  · refine ⟨fun u => if u ≤ 0 then 0 else u, ⟨fun h => absurd h (by decide),
      fun h => absurd h (by decide), fun h => absurd h (by decide), fun _ => rfl⟩,
      fun _ => funext hrelu, ?_, ?_⟩
    · intro u
      show (if (if u < 0 then 0 else u) ≤ 0 then (0 : R) else 1) = (if u ≤ 0 then 0 else 1)
      rw [← hrelu u]
      by_cases h : u ≤ 0 <;> simp [h]
    · intro y x
      simp [forward_nonlin, LIN, SIG, TANH, RELU, forward_relu, Tensor2.assign,
        Tensor2.unaryExpr]

/-- For a valid code the two-batch `backward_nonlin` adds the table's output-derivative of
`y.v` times `y.d` to `x.d`. -/
theorem backward_nonlin2_table (P : Numerics R) (y x : Batch R) (nl : Int)
    (entry : Nonlinearity R) (hnl : 0 ≤ nl)
    (hentry : (nonlinearities P)[nl.toNat]? = some entry) :
    backward_nonlin2 y x nl = some (y, Batch.mk x.v (Tensor2.mk x.d.rows x.d.cols
      (fun i j => x.d.get i j + entry.yderiv (y.v.get i j) * y.d.get i j))) := by
  rcases table_entry_cases P nl entry hnl hentry with ⟨rfl, rfl⟩ | ⟨rfl, rfl⟩ | ⟨rfl, rfl⟩ |
    ⟨rfl, rfl⟩
  · simp [backward_nonlin2, backward_identity2, Tensor2.addAssign]
  · simp only [backward_nonlin2, LIN, SIG, backward_sigmoid2, Tensor2.addAssign, Tensor2.mul,
      Tensor2.neg, Tensor2.addScalar]
    simp only [show ¬ ((1 : Int) = 0) by decide, if_false, if_true, Option.some.injEq,
      Prod.mk.injEq, Batch.mk.injEq, Tensor2.mk.injEq, true_and]
    funext i j
    ring
  · simp only [backward_nonlin2, LIN, SIG, TANH, backward_tanh2, Tensor2.addAssign,
      Tensor2.mul, Tensor2.neg, Tensor2.addScalar]
    simp only [show ¬ ((2 : Int) = 0) by decide, show ¬ ((2 : Int) = 1) by decide, if_false,
      if_true, Option.some.injEq, Prod.mk.injEq, Batch.mk.injEq, Tensor2.mk.injEq, true_and]
    funext i j
    ring
  · simp only [backward_nonlin2, LIN, SIG, TANH, RELU, backward_relu2, Tensor2.addAssign,
      Tensor2.mul, Tensor2.unaryExpr]
    simp only [show ¬ ((3 : Int) = 0) by decide, show ¬ ((3 : Int) = 1) by decide,
      show ¬ ((3 : Int) = 2) by decide, if_false, if_true, Option.some.injEq,
      Prod.mk.injEq, Batch.mk.injEq, Tensor2.mk.injEq, true_and]
    funext i j
    ring

/-- C10 as stated fails at the sigmoid code when the table's `sigmoid` is the saturating
helper (`numSat`): with `state.v = 31`, `go.v = 3` the enabled `forward_nonlingate` writes
`out.v = esigmoid 31 * 3 = 32/11`, Eigen's function of the scratch batch, while the table's
forward function gives `sigmoid 31 * 3 = 93/32`, which is what the disabled branch
writes. -/
theorem nonlingate_saturating_sigmoid_counterexample :
    ∃ (entry : Nonlinearity ℚ) (out1 outA : Batch ℚ),
      (nonlinearities numSat)[SIG.toNat]? = some entry ∧
      forward_nonlingate numSat freshQ (Batch.const 1 1 0 2) (Batch.const 1 1 31 5)
        (Batch.const 1 1 3 7) SIG = some (out1, Batch.const 1 1 31 5, Batch.const 1 1 3 7) ∧
      forward_nonlingate_alt numSat (Batch.const 1 1 0 2) (Batch.const 1 1 31 5)
        (Batch.const 1 1 3 7) SIG = some (outA, Batch.const 1 1 31 5, Batch.const 1 1 3 7) ∧
      out1.v.get 0 0 = 32 / 11 ∧
      entry.nonlin ((Batch.const 1 1 31 5 : Batch ℚ).v.get 0 0)
        * (Batch.const 1 1 3 7 : Batch ℚ).v.get 0 0 = 93 / 32 ∧
      outA.v.get 0 0 = 93 / 32 ∧ out1.v.get 0 0 ≠ outA.v.get 0 0 := by
  refine ⟨_, _, _, rfl, rfl, rfl, ?_, ?_, ?_, ?_⟩ <;>
    norm_num [nonlinearities, numSat, limexpQ, expQ, forward_sigmoid, forward_gate,
      Batch.const, Tensor2.const, Tensor2.assign, Tensor2.mul, Tensor2.unaryExpr, SIG]

/-- C10, amended: the nonlinear output gate differentiates through the nonlinearity
`forward_nonlin` applies.  For a valid code `nl` with row `entry` of `nonlinearities`
there is one scalar function `f` that `forward_nonlin` maps over its input (the identity,
Eigen's coefficient-wise sigmoid, Eigen's coefficient-wise tanh, relu), and for
same-shaped `out`, `state`, `go` and a scratch batch whose gradient is zero after
`resize`: `forward_nonlingate` sets `out.v = f (state.v) * go.v` and keeps `out.d`;
`backward_nonlingate` sets `go.d += f (state.v) * out.d` and
`state.d += entry.yderiv (f (state.v)) * go.v * out.d` and leaves `out`, `state.v`, `go.v`
as they were.  The disabled branches complete with the same formulas in `entry.nonlin`
and `entry.xderiv`; the enabled results equal theirs at every entry where
`f (state.v) = entry.nonlin (state.v)`, and the calls return the same for the identity and
relu codes and whenever `f` and `entry.nonlin` are the same function.  For the identity
code the calls return what `forward_gate` / `backward_gate` applied to `state` return. -/
theorem nonlingate_differentiates (P : Numerics R) (fresh : Nat → Nat → Batch R)
    (out state go : Batch R) (nl : Int) (entry : Nonlinearity R) (r c : Nat)
    (hnl : 0 ≤ nl) (hentry : (nonlinearities P)[nl.toNat]? = some entry)
    (hout : out.Shaped r c) (hstate : state.Shaped r c) (hgo : go.Shaped r c)
    (hfresh : ∀ i b, (fresh out.rows out.cols).d.get i b = 0) :
    ∃ (f : R → R) (out1 state1 go1 outA stateA goA : Batch R),
      ((nl = LIN → f = fun u => u) ∧ (nl = SIG → f = P.esigmoid) ∧
        (nl = TANH → f = P.etanh) ∧ (nl = RELU → f = fun u => if u ≤ 0 then 0 else u)) ∧
      (∀ t : Batch R, ∃ t1 : Batch R, forward_nonlin P t state nl = some (t1, state) ∧
        ∀ i b, t1.v.get i b = f (state.v.get i b)) ∧
      forward_nonlingate P fresh out state go nl = some (out1, state, go) ∧
      backward_nonlingate P fresh out state go nl = some (out, state1, go1) ∧
      out1.d = out.d ∧ state1.v = state.v ∧ go1.v = go.v ∧
      (∀ i b, i < r → b < c →
        out1.v.get i b = f (state.v.get i b) * go.v.get i b ∧
        go1.d.get i b = go.d.get i b + f (state.v.get i b) * out.d.get i b ∧
        state1.d.get i b = state.d.get i b
          + entry.yderiv (f (state.v.get i b)) * go.v.get i b * out.d.get i b) ∧
      forward_nonlingate_alt P out state go nl = some (outA, state, go) ∧
      backward_nonlingate_alt P out state go nl = some (out, stateA, goA) ∧
      (∀ i b, i < r → b < c →
        outA.v.get i b = entry.nonlin (state.v.get i b) * go.v.get i b ∧
        goA.d.get i b = go.d.get i b + entry.nonlin (state.v.get i b) * out.d.get i b ∧
        stateA.d.get i b = state.d.get i b
          + entry.xderiv (state.v.get i b) * go.v.get i b * out.d.get i b) ∧
      (∀ i b, i < r → b < c → f (state.v.get i b) = entry.nonlin (state.v.get i b) →
        out1.v.get i b = outA.v.get i b ∧ go1.d.get i b = goA.d.get i b ∧
        state1.d.get i b = stateA.d.get i b) ∧
      ((nl = LIN ∨ nl = RELU ∨ ∀ u, f u = entry.nonlin u) →
        forward_nonlingate P fresh out state go nl = forward_nonlingate_alt P out state go nl ∧
        backward_nonlingate P fresh out state go nl
          = backward_nonlingate_alt P out state go nl) ∧
      (nl = LIN →
        forward_nonlingate P fresh out state go nl = some (forward_gate out state go) ∧
        backward_nonlingate P fresh out state go nl = some (backward_gate out state go)) := by
  obtain ⟨f, hcodes, hsame, hyx, hrun⟩ := forward_nonlin_applied P nl entry hnl hentry
  have hfwd : forward_nonlingate P fresh out state go nl
      = some (Batch.mk (Tensor2.mk out.v.rows out.v.cols
          (fun i j => f (state.v.get i j) * go.v.get i j)) out.d, state, go) := by
    unfold forward_nonlingate
    simp only [hrun, Option.bind_eq_bind, Option.some_bind]
    rfl
  have hbwd : backward_nonlingate P fresh out state go nl
      = some (out, Batch.mk state.v (Tensor2.mk state.d.rows state.d.cols
          (fun i j => state.d.get i j
            + entry.yderiv (f (state.v.get i j)) * (go.v.get i j * out.d.get i j))),
          Batch.mk go.v (Tensor2.mk go.d.rows go.d.cols
            (fun i j => go.d.get i j + f (state.v.get i j) * out.d.get i j))) := by
    unfold backward_nonlingate
    simp only [hrun, Option.bind_eq_bind, Option.some_bind, backward_gate,
      backward_nonlin2_table P _ _ nl entry hnl hentry]
    simp [Tensor2.addAssign, Tensor2.mul, hfresh]
  have hfa : forward_nonlingate_alt P out state go nl
      = some (Batch.mk (Tensor2.mk out.v.rows out.v.cols
          (fun i j => entry.nonlin (state.v.get i j) * go.v.get i j)) out.d, state, go) := by
    unfold forward_nonlingate_alt
    dsimp only
    rw [if_pos hnl, hentry]
    rfl
  have hba : backward_nonlingate_alt P out state go nl
      = some (out, Batch.mk state.v (Tensor2.mk state.d.rows state.d.cols
          (fun i j => state.d.get i j
            + entry.xderiv (state.v.get i j) * go.v.get i j * out.d.get i j)),
          Batch.mk go.v (Tensor2.mk go.d.rows go.d.cols
            (fun i j => go.d.get i j + entry.nonlin (state.v.get i j) * out.d.get i j))) := by
    unfold backward_nonlingate_alt
    dsimp only
    rw [if_pos hnl, hentry]
    rfl
  have hall : (nl = LIN ∨ nl = RELU ∨ ∀ u, f u = entry.nonlin u) → f = entry.nonlin := by
    rintro (h | h | h)
    · exact hsame (Or.inl h)
    · exact hsame (Or.inr h)
    · exact funext h
  refine ⟨f, _, _, _, _, _, _, hcodes, fun t => ⟨_, hrun t state, fun _ _ => rfl⟩, hfwd, hbwd,
    rfl, rfl, rfl, ?_, hfa, hba, fun _ _ _ _ => ⟨rfl, rfl, rfl⟩, ?_, ?_, ?_⟩
  · intro i b _ _
    refine ⟨rfl, rfl, ?_⟩
    show _ + _ * (_ * _) = _ + _ * _ * _
    ring
  · intro i b _ _ he
    refine ⟨?_, ?_, ?_⟩
    · show f _ * _ = entry.nonlin _ * _
      rw [he]
    · show _ + f _ * _ = _ + entry.nonlin _ * _
      rw [he]
    · show _ + entry.yderiv (f _) * (_ * _) = _ + entry.xderiv _ * _ * _
      rw [he, hyx]
      ring
  · intro h
    have hf := hall h
    subst hf
    rw [hfwd, hfa, hbwd, hba]
    refine ⟨rfl, ?_⟩
    simp only [hyx, mul_assoc]
  · intro h
    have hf : f = fun u => u := hcodes.1 h
    subst hf
    subst h
    have hy1 : ∀ u, entry.yderiv u = 1 := by
      have := table_entry_cases P LIN entry hnl hentry
      rcases this with ⟨-, rfl⟩ | ⟨h, -⟩ | ⟨h, -⟩ | ⟨h, -⟩
      · intro u
        rfl
      · exact absurd h (by decide)
      · exact absurd h (by decide)
      · exact absurd h (by decide)
    rw [hfwd, hbwd]
    refine ⟨rfl, ?_⟩
    simp [backward_gate, Tensor2.addAssign, Tensor2.mul, hy1]

/-- C10 amended, at the sigmoid code over `numSat` inside the range where the saturating
sigmoid and Eigen's agree: `state.v = 1`, `go.v = 3`, `out.d = 2`, prior gradients
`state.d = 5`, `go.d = 7`.  The forward value is `2/3 * 3`, the gradients become
`7 + 2/3 * 2` and `5 + 2/9 * 3 * 2`, in the enabled and in the disabled branch. -/
theorem nonlingate_differentiates_witness :
    ∃ out1 state1 go1 outA stateA goA : Batch ℚ,
      forward_nonlingate numSat freshQ (Batch.const 1 1 0 2) (Batch.const 1 1 1 5)
        (Batch.const 1 1 3 7) SIG = some (out1, Batch.const 1 1 1 5, Batch.const 1 1 3 7) ∧
      backward_nonlingate numSat freshQ (Batch.const 1 1 0 2) (Batch.const 1 1 1 5)
        (Batch.const 1 1 3 7) SIG = some (Batch.const 1 1 0 2, state1, go1) ∧
      forward_nonlingate_alt numSat (Batch.const 1 1 0 2) (Batch.const 1 1 1 5)
        (Batch.const 1 1 3 7) SIG = some (outA, Batch.const 1 1 1 5, Batch.const 1 1 3 7) ∧
      backward_nonlingate_alt numSat (Batch.const 1 1 0 2) (Batch.const 1 1 1 5)
        (Batch.const 1 1 3 7) SIG = some (Batch.const 1 1 0 2, stateA, goA) ∧
      (out1.v.get 0 0 = 2 ∧ go1.d.get 0 0 = 25 / 3 ∧ state1.d.get 0 0 = 19 / 3) ∧
      (outA.v.get 0 0 = 2 ∧ goA.d.get 0 0 = 25 / 3 ∧ stateA.d.get 0 0 = 19 / 3) := by
  obtain ⟨f, out1, state1, go1, outA, stateA, goA, hcodes, -, hfwd, hbwd, -, -, -, hen, hfa,
      hba, -, hagree, -, -⟩ :=
    nonlingate_differentiates numSat freshQ (Batch.const 1 1 0 2) (Batch.const 1 1 1 5)
      (Batch.const 1 1 3 7) SIG ((nonlinearities numSat).get ⟨1, by decide⟩) 1 1
      (by decide) rfl ⟨rfl, rfl, rfl, rfl⟩ ⟨rfl, rfl, rfl, rfl⟩ ⟨rfl, rfl, rfl, rfl⟩
      (fun _ _ => rfl)
  have hf : f = numSat.esigmoid := hcodes.2.1 rfl
  subst hf
  obtain ⟨h1, h2, h3⟩ := hen 0 0 (by decide) (by decide)
  have hsame : numSat.esigmoid ((Batch.const 1 1 1 5 : Batch ℚ).v.get 0 0)
      = ((nonlinearities numSat).get ⟨1, by decide⟩).nonlin
          ((Batch.const 1 1 1 5 : Batch ℚ).v.get 0 0) := by
    norm_num [nonlinearities, numSat, limexpQ, expQ, Batch.const, Tensor2.const]
  obtain ⟨a1, a2, a3⟩ := hagree 0 0 (by decide) (by decide) hsame
  have e1 : out1.v.get 0 0 = 2 := by
    rw [h1]
    norm_num [numSat, expQ, Batch.const, Tensor2.const]
  have e2 : go1.d.get 0 0 = 25 / 3 := by
    rw [h2]
    norm_num [numSat, expQ, Batch.const, Tensor2.const]
  have e3 : state1.d.get 0 0 = 19 / 3 := by
    rw [h3]
    norm_num [nonlinearities, numSat, expQ, Batch.const, Tensor2.const]
  exact ⟨out1, state1, go1, outA, stateA, goA, hfwd, hbwd, hfa, hba, ⟨e1, e2, e3⟩,
    ⟨a1 ▸ e1, a2 ▸ e2, a3 ▸ e3⟩⟩

end NonlinTheorems

section StackTheorems
variable [CommRing R]

/-- C11: stack / unstack duality, exact.  For `x` of shape `[nx, bs]`, `y` of shape
`[ny, bs]` and `z` of shape `[nx+ny, bs]`, `forward_stack` completes, leaves `z.d`, `x`
and `y` as they were and writes `z.v[i,b] = x.v[i,b]` for `i < nx` and
`z.v[nx+i,b] = y.v[i,b]` for `i < ny`; `backward_stack` then gives
`x.d = x.d_old + z.d[0:nx]` and `y.d = y.d_old + z.d[nx:nx+ny]`, which with `x.d`, `y.d`
zero beforehand are the two slices of `z.d` themselves. -/
theorem stack_unstack_duality (z x y : Batch R) (nx ny bs : Nat)
    (hx : x.Shaped nx bs) (hy : y.Shaped ny bs) (hz : z.Shaped (nx + ny) bs) :
    ∃ z1 : Batch R, forward_stack z x y = some (z1, x, y) ∧ z1.d = z.d ∧
      (∀ i b, i < nx → b < bs → z1.v.get i b = x.v.get i b) ∧
      (∀ i b, i < ny → b < bs → z1.v.get (nx + i) b = y.v.get i b) ∧
      (∀ i b, i < nx → b < bs →
        (backward_stack z1 x y).2.1.d.get i b = x.d.get i b + z.d.get i b) ∧
      (∀ i b, i < ny → b < bs →
        (backward_stack z1 x y).2.2.d.get i b = y.d.get i b + z.d.get (nx + i) b) ∧
      ((∀ i b, x.d.get i b = 0) → (∀ i b, y.d.get i b = 0) →
        (∀ i b, i < nx → b < bs → (backward_stack z1 x y).2.1.d.get i b = z.d.get i b) ∧
        (∀ i b, i < ny → b < bs →
          (backward_stack z1 x y).2.2.d.get i b = z.d.get (nx + i) b)) := by
  obtain ⟨hxr, hxc, -, -⟩ := hx
  obtain ⟨hyr, hyc, -, -⟩ := hy
  obtain ⟨hzr, hzc, -, -⟩ := hz
  have hcond : z.rows = x.rows + y.rows ∧ (z.cols = x.cols ∧ z.cols = y.cols) := by
    simp [Batch.rows, Batch.cols, hxr, hxc, hyr, hyc, hzr, hzc]
  unfold forward_stack
  dsimp only
  rw [if_pos hcond]
  refine ⟨_, rfl, rfl, ?_, ?_, ?_, ?_, ?_⟩
  · intro i b hi hb
    have h1 : ¬ (x.v.rows ≤ i ∧ i < x.v.rows + y.v.rows ∧ b < x.v.cols) := by omega
    have h2 : i < x.v.rows ∧ b < x.v.cols := by omega
    simp [Tensor2.sliceAssign, h1, h2]
  · intro i b hi hb
    have h1 : i < y.v.rows := by omega
    have h2 : b < x.v.cols := by omega
    simp [Tensor2.sliceAssign, h1, h2, ← hxr]
  · intro i b _ _
    simp [backward_stack, Tensor2.addAssign, Tensor2.slice]
  · intro i b _ _
    simp [backward_stack, Tensor2.addAssign, Tensor2.slice, hxr]
  · intro hx0 hy0
    refine ⟨?_, ?_⟩
    · intro i b _ _
      simp [backward_stack, Tensor2.addAssign, Tensor2.slice, hx0]
    · intro i b _ _
      simp [backward_stack, Tensor2.addAssign, Tensor2.slice, hxr, hy0]

/-- C11 at `exZ`, `exX`, `exY` (`nx = ny = 2`, `bs = 2`): the call completes, row `3` of
`z.v` is row `1` of `y.v`, and `x.d[1,1]` goes from `7` to `7 + 111`. -/
theorem stack_unstack_duality_witness :
    ∃ z1 : Batch ℚ, forward_stack exZ exX exY = some (z1, exX, exY) ∧
      z1.v.get (2 + 1) 1 = exY.v.get 1 1 ∧
      (backward_stack z1 exX exY).2.1.d.get 1 1 = 7 + 111 := by
  obtain ⟨z1, hrun, -, -, hv, hd, -, -⟩ := stack_unstack_duality exZ exX exY 2 2 2
    ⟨rfl, rfl, rfl, rfl⟩ ⟨rfl, rfl, rfl, rfl⟩ ⟨rfl, rfl, rfl, rfl⟩
  refine ⟨z1, hrun, hv 1 1 (by decide) (by decide), ?_⟩
  rw [hd 1 1 (by decide) (by decide)]
  norm_num [exX, exZ]

/-- The feature dimension `ny` of a sequence is read at `y[0]` by both delayed-stack
primitives, whatever `last` is: a sequence has a shape `[ny, bs]` only if it has an
element, and on the empty sequence neither call has a result. -/
theorem stack_delay_reads_first_element (z x : Batch R) (last : Int) :
    forward_stack_delay z x [] last = none ∧ backward_stack_delay z x [] last = none :=
  ⟨rfl, rfl⟩

/-- C12 as stated fails on the empty sequence: every element of `[]` has shape `[2, 2]`,
`exX` has shape `[2, 2]` and `exZ` shape `[2+2, 2]`, yet with `last = -1` the call has no
result, because `ny = y[0].v.dimension(0)` is read at an element that does not exist
before `last` is looked at. -/
theorem forward_stack_delay_empty_sequence_counterexample :
    (∀ e ∈ ([] : Sequence ℚ), e.Shaped 2 2) ∧ exX.Shaped 2 2 ∧ exZ.Shaped (2 + 2) 2 ∧
    ([] : Sequence ℚ)[0]? = none ∧
    forward_stack_delay exZ exX [] (-1) = none ∧
    forward_stack_delay_trace exZ exX [] (-1) = Outcome.undefined :=
  ⟨fun _ he => absurd he (List.not_mem_nil _), ⟨rfl, rfl, rfl, rfl⟩, ⟨rfl, rfl, rfl, rfl⟩,
    rfl, rfl, rfl⟩

/-- C12, amended: on a non-empty sequence `forward_stack_delay` concatenates `x` with the
delayed element or with zeros.
For `x` of shape `[nx, bs]`, a sequence `y` of feature dimension `ny` (its first element
`y0` exists and all its elements have shape `[ny, bs]`) and `z` of shape `[nx+ny, bs]`
the call completes, leaves `x` and `y` as they were and writes `z.v[0:nx] = x.v`; if
`0 ≤ last < length y` the upper slice is `y[last].v` and the resulting `z` is the one
`forward_stack(z, x, y[last])` produces; if `last < 0` (the sentinel `-1` included)
every entry of the upper slice is zero. -/
theorem forward_stack_delay_concat (z x : Batch R) (y : Sequence R) (y0 : Batch R)
    (last : Int) (nx ny bs : Nat) (hx : x.Shaped nx bs) (hz : z.Shaped (nx + ny) bs)
    (hy0 : y[0]? = some y0) (hy : ∀ e ∈ y, e.Shaped ny bs) :
    (∀ yl : Batch R, 0 ≤ last → y[last.toNat]? = some yl →
      ∃ z1 : Batch R, forward_stack_delay z x y last = some (z1, x, y) ∧
        (∀ i b, i < nx → b < bs → z1.v.get i b = x.v.get i b) ∧
        (∀ i b, i < ny → b < bs → z1.v.get (nx + i) b = yl.v.get i b) ∧
        forward_stack z x yl = some (z1, x, yl)) ∧
    (last < 0 →
      ∃ z1 : Batch R, forward_stack_delay z x y last = some (z1, x, y) ∧
        (∀ i b, i < nx → b < bs → z1.v.get i b = x.v.get i b) ∧
        (∀ i b, i < ny → b < bs → z1.v.get (nx + i) b = 0)) := by
  obtain ⟨hxr, hxc, -, -⟩ := hx
  obtain ⟨hzr, hzc, -, -⟩ := hz
  obtain ⟨h0r, h0c, -, -⟩ := hy y0 (List.getElem?_mem hy0)
  have hcond : z.rows = x.rows + y0.rows ∧ (z.cols = x.cols ∧ z.cols = y0.cols) := by
    simp [Batch.rows, Batch.cols, hxr, hxc, h0r, h0c, hzr, hzc]
  have hxy : x.cols = y0.cols := by simp [Batch.cols, hxc, h0c]
  have hlow : ∀ (t : Tensor2 R) (i b : Nat), i < nx → b < bs →
      ((z.v.sliceAssign 0 0 x.v.rows x.v.cols x.v).sliceAssign x.v.rows 0 y0.v.rows
        x.v.cols t).get i b = x.v.get i b := by
    intro t i b hi hb
    have h1 : ¬ (x.v.rows ≤ i ∧ i < x.v.rows + y0.v.rows ∧ b < x.v.cols) := by omega
    have h2 : i < x.v.rows ∧ b < x.v.cols := by omega
    simp [Tensor2.sliceAssign, h1, h2]
  refine ⟨?_, ?_⟩
  · intro yl h0 hyl
    obtain ⟨hlr, hlc, -, -⟩ := hy yl (List.getElem?_mem hyl)
    have hcond2 : z.rows = x.rows + yl.rows ∧ (z.cols = x.cols ∧ z.cols = yl.cols) := by
      simp [Batch.rows, Batch.cols, hxr, hxc, hlr, hlc, hzr, hzc]
    have hrun : forward_stack_delay z x y last
        = some (Batch.mk ((z.v.sliceAssign 0 0 x.v.rows x.v.cols x.v).sliceAssign x.v.rows 0
            y0.v.rows x.v.cols yl.v) z.d, x, y) := by
      simp [forward_stack_delay, Sequence.rows, Sequence.cols, hy0, hcond, hxy, h0, hyl]
    refine ⟨_, hrun, hlow yl.v, ?_, ?_⟩
    · intro i b hi hb
      have h1 : i < y0.v.rows := by omega
      have h2 : b < x.v.cols := by omega
      simp [Tensor2.sliceAssign, h1, h2, ← hxr]
    · unfold forward_stack
      dsimp only
      rw [if_pos hcond2, hlr, h0r]
  · intro hneg
    have h0 : ¬ (0 ≤ last) := by omega
    have hrun : forward_stack_delay z x y last
        = some (Batch.mk ((z.v.sliceAssign 0 0 x.v.rows x.v.cols x.v).sliceSetZero x.v.rows 0
            y0.v.rows x.v.cols) z.d, x, y) := by
      simp [forward_stack_delay, Sequence.rows, Sequence.cols, hy0, hcond, hxy, h0]
    refine ⟨_, hrun, ?_, ?_⟩
    · intro i b hi hb
      have h1 : ¬ (x.v.rows ≤ i ∧ i < x.v.rows + y0.v.rows ∧ b < x.v.cols) := by omega
      have h2 : i < x.v.rows ∧ b < x.v.cols := by omega
      simp [Tensor2.sliceSetZero, Tensor2.sliceAssign, h1, h2]
    · intro i b hi hb
      have h1 : i < y0.v.rows := by omega
      have h2 : b < x.v.cols := by omega
      simp [Tensor2.sliceSetZero, h1, h2, ← hxr]

/-- C12 at `exZ`, `exX`, `exSeq`: with `last = -1` the call completes and the upper
slice entry `z.v[2+1,1]` is `0` although `z.v` held `9`; with `last = 1` it is
`exX.v[1,1] = 5`. -/
theorem forward_stack_delay_concat_witness :
    (∃ z1 : Batch ℚ, forward_stack_delay exZ exX exSeq (-1) = some (z1, exX, exSeq) ∧
      z1.v.get (2 + 1) 1 = 0) ∧
    (∃ z1 : Batch ℚ, forward_stack_delay exZ exX exSeq 1 = some (z1, exX, exSeq) ∧
      z1.v.get (2 + 1) 1 = 5) := by
  have hshape : ∀ e ∈ exSeq, e.Shaped 2 2 := by
    intro e he
    simp only [exSeq, List.mem_cons, List.mem_singleton, List.not_mem_nil, or_false] at he
    rcases he with rfl | rfl <;> exact ⟨rfl, rfl, rfl, rfl⟩
  refine ⟨?_, ?_⟩
  · obtain ⟨z1, hrun, -, hup⟩ :=
      (forward_stack_delay_concat exZ exX exSeq exY (-1) 2 2 2
        ⟨rfl, rfl, rfl, rfl⟩ ⟨rfl, rfl, rfl, rfl⟩ rfl hshape).2 (by decide)
    exact ⟨z1, hrun, hup 1 1 (by decide) (by decide)⟩
  · obtain ⟨z1, hrun, -, hup, -⟩ :=
      (forward_stack_delay_concat exZ exX exSeq exY 1 2 2 2
        ⟨rfl, rfl, rfl, rfl⟩ ⟨rfl, rfl, rfl, rfl⟩ rfl hshape).1 exX (by decide) rfl
    refine ⟨z1, hrun, ?_⟩
    rw [hup 1 1 (by decide) (by decide)]
    norm_num [exX]

/-- C13 as stated fails on the empty sequence: with `last = -1` the call on `exZ`, `exX`
and `[]` has no result, because `ny = y[0].v.dimension(0)` indexes the sequence at `0`,
outside its bounds, whatever `last` is. -/
theorem backward_stack_delay_empty_sequence_counterexample :
    ([] : Sequence ℚ).length = 0 ∧ ([] : Sequence ℚ)[0]? = none ∧
    exX.Shaped 2 2 ∧ exZ.Shaped (2 + 2) 2 ∧
    backward_stack_delay exZ exX ([] : Sequence ℚ) (-1) = none :=
  ⟨rfl, rfl, ⟨rfl, rfl, rfl, rfl⟩, ⟨rfl, rfl, rfl, rfl⟩, rfl⟩

/-- C13, amended: on a non-empty sequence `backward_stack_delay` treats the sentinel as
"contribute zero".  For `x` of
shape `[nx, bs]`, `z` of shape `[nx+ny, bs]` with arbitrary `z.d` and a sequence `y` of
feature dimension `ny` (its first element `y0` exists and all its elements have shape
`[ny, bs]`), the call sets `x.d = x.d_old + z.d[0:nx]` and leaves
`z` and `x.v` as they were; if `last < 0` (the sentinel `-1` included) it completes and
returns the sequence itself; if `0 ≤ last < length y` it sets
`y[last].d = y[last].d_old + z.d[nx:nx+ny]`, keeps `y[last].v`, and every other element
of the sequence is as it was. -/
theorem backward_stack_delay_scatter (z x : Batch R) (y : Sequence R) (y0 : Batch R)
    (last : Int) (nx ny bs : Nat) (hx : x.Shaped nx bs) (hz : z.Shaped (nx + ny) bs)
    (hy0 : y[0]? = some y0) (hy : ∀ e ∈ y, e.Shaped ny bs) :
    (last < 0 →
      ∃ x1 : Batch R, backward_stack_delay z x y last = some (z, x1, y) ∧ x1.v = x.v ∧
        ∀ i b, i < nx → b < bs → x1.d.get i b = x.d.get i b + z.d.get i b) ∧
    (∀ yl : Batch R, 0 ≤ last → y[last.toNat]? = some yl →
      ∃ (x1 yl1 : Batch R) (y1 : Sequence R),
        backward_stack_delay z x y last = some (z, x1, y1) ∧ x1.v = x.v ∧
        (∀ i b, i < nx → b < bs → x1.d.get i b = x.d.get i b + z.d.get i b) ∧
        y1.length = y.length ∧ y1[last.toNat]? = some yl1 ∧ yl1.v = yl.v ∧
        (∀ i b, i < ny → b < bs → yl1.d.get i b = yl.d.get i b + z.d.get (nx + i) b) ∧
        ∀ k, k ≠ last.toNat → y1[k]? = y[k]?) := by
  obtain ⟨hxr, hxc, -, -⟩ := hx
  have hxd : ∀ i b, (x.d.addAssign (z.d.slice 0 0 x.v.rows x.v.cols)).get i b
      = x.d.get i b + z.d.get i b := by
    intro i b
    simp [Tensor2.addAssign, Tensor2.slice]
  refine ⟨?_, ?_⟩
  · intro hneg
    have h0 : ¬ (0 ≤ last) := by omega
    have hrun : backward_stack_delay z x y last
        = some (z, Batch.mk x.v (x.d.addAssign (z.d.slice 0 0 x.v.rows x.v.cols)), y) := by
      simp [backward_stack_delay, hy0, h0]
    exact ⟨_, hrun, rfl, fun i b _ _ => hxd i b⟩
  · intro yl h0 hyl
    have hlt : last.toNat < y.length := by
      rcases List.getElem?_eq_some.mp hyl with ⟨h, -⟩
      exact h
    have hrun : backward_stack_delay z x y last
        = some (z, Batch.mk x.v (x.d.addAssign (z.d.slice 0 0 x.v.rows x.v.cols)),
            y.set last.toNat (Batch.mk yl.v
              (yl.d.addAssign (z.d.slice x.v.rows 0 y0.v.rows x.v.cols)))) := by
      simp [backward_stack_delay, hy0, h0, hyl]
    refine ⟨_, Batch.mk yl.v (yl.d.addAssign (z.d.slice x.v.rows 0 y0.v.rows x.v.cols)), _,
      hrun, rfl, fun i b _ _ => hxd i b, by simp, by simp [hlt], rfl, ?_, ?_⟩
    · intro i b _ _
      simp [Tensor2.addAssign, Tensor2.slice, hxr]
    · intro k hk
      simp [List.getElem?_set, Ne.symm hk]

/-- C13 at `exZ`, `exX`, `exSeq`: with `last = -1` the call completes and hands back
`exSeq` itself, and `x.d[1,1]` goes from `7` to `7 + 111`. -/
theorem backward_stack_delay_scatter_witness :
    ∃ x1 : Batch ℚ, backward_stack_delay exZ exX exSeq (-1) = some (exZ, x1, exSeq) ∧
      x1.d.get 1 1 = 7 + 111 := by
  have hshape : ∀ e ∈ exSeq, e.Shaped 2 2 := by
    intro e he
    simp only [exSeq, List.mem_cons, List.mem_singleton, List.not_mem_nil, or_false] at he
    rcases he with rfl | rfl <;> exact ⟨rfl, rfl, rfl, rfl⟩
  obtain ⟨x1, hrun, -, hd⟩ :=
    (backward_stack_delay_scatter exZ exX exSeq exY (-1) 2 2 2
      ⟨rfl, rfl, rfl, rfl⟩ ⟨rfl, rfl, rfl, rfl⟩ rfl hshape).1 (by decide)
  refine ⟨x1, hrun, ?_⟩
  rw [hd 1 1 (by decide) (by decide)]
  norm_num [exX, exZ]

end StackTheorems

section ReverseTheorems

/-- After `k` steps of the loop of `forward_reverse` the last `k` positions of the
destination hold the first `k` elements of `x` in reverse order. -/
theorem forward_reverse_loop (y x : Sequence R) (hlen : y.length = x.length) (k : Nat)
    (hk : k ≤ x.length) :
    ∃ yk : Sequence R,
      (List.range k).foldlM (forward_reverse_step x x.length) y = some yk ∧
      yk.length = x.length ∧
      ∀ j, yk[j]? = if x.length - k ≤ j ∧ j < x.length then x[x.length - 1 - j]? else y[j]? := by
  induction k with
  | zero =>
    refine ⟨y, rfl, hlen, ?_⟩
    intro j
    have : ¬ (x.length - 0 ≤ j ∧ j < x.length) := by omega
    rw [if_neg this]
  | succ k ih =>
    obtain ⟨yk, hfold, hyk, hget⟩ := ih (by omega)
    have hkl : k < x.length := by omega
    obtain ⟨xk, hxk⟩ : ∃ xk, x[k]? = some xk := ⟨x[k], List.getElem?_eq_getElem hkl⟩
    have hstep : forward_reverse_step x x.length yk k
        = some (yk.set (x.length - k - 1) xk) := by
      have hlt : x.length - k - 1 < yk.length := by omega
      simp [forward_reverse_step, hxk, hlt]
    refine ⟨yk.set (x.length - k - 1) xk, ?_, by simp [hyk], ?_⟩
    · rw [List.range_succ, List.foldlM_append, hfold]
      simp [hstep]
    · intro j
      rw [List.getElem?_set, hget j]
      by_cases hj : x.length - k - 1 = j
      · have h1 : x.length - k - 1 < yk.length := by omega
        have h2 : x.length - (k + 1) ≤ j ∧ j < x.length := by omega
        have h3 : x.length - 1 - j = k := by omega
        rw [if_pos hj, if_pos h1, if_pos h2, h3, hxk]
      · rw [if_neg hj]
        by_cases h2 : x.length - k ≤ j ∧ j < x.length
        · have h3 : x.length - (k + 1) ≤ j ∧ j < x.length := by omega
          rw [if_pos h2, if_pos h3]
        · have h3 : ¬ (x.length - (k + 1) ≤ j ∧ j < x.length) := by omega
          rw [if_neg h2, if_neg h3]

/-- With a destination of the same length, `forward_reverse` completes, returns `x`
untouched, and the destination read at `j` is `x` read at `N - 1 - j`. -/
theorem forward_reverse_run (y x : Sequence R) (hlen : y.length = x.length) :
    ∃ y1 : Sequence R, forward_reverse y x = some (y1, x) ∧ y1.length = x.length ∧
      ∀ j, j < x.length → y1[j]? = x[x.length - 1 - j]? := by
  obtain ⟨y1, hfold, hy1, hget⟩ := forward_reverse_loop y x hlen x.length (le_refl _)
  refine ⟨y1, by simp [forward_reverse, hfold], hy1, ?_⟩
  intro j hj
  have h : x.length - x.length ≤ j ∧ j < x.length := by omega
  rw [hget j, if_pos h]

/-- C14: reversal involution.  For `x` of length `N` and a destination `y` of length
`N`, `forward_reverse(y, x)` completes, makes `y[N-1-i]` equal to `x[i]` for every
`i < N` and leaves `x` as it was; reversing the result into a third sequence `w` of
length `N` reproduces `x` exactly. -/
theorem forward_reverse_involution (y w x : Sequence R) (hy : y.length = x.length)
    (hw : w.length = x.length) :
    ∃ y1 w1 : Sequence R, forward_reverse y x = some (y1, x) ∧ y1.length = x.length ∧
      (∀ i, i < x.length → ∃ xi : Batch R, x[i]? = some xi ∧ y1[x.length - 1 - i]? = some xi) ∧
      forward_reverse w y1 = some (w1, y1) ∧ w1 = x := by
  obtain ⟨y1, hrun1, hlen1, hget1⟩ := forward_reverse_run y x hy
  obtain ⟨w1, hrun2, hlen2, hget2⟩ := forward_reverse_run w y1 (by omega)
  refine ⟨y1, w1, hrun1, hlen1, ?_, hrun2, ?_⟩
  · intro i hi
    refine ⟨x[i], List.getElem?_eq_getElem hi, ?_⟩
    have h1 : x.length - 1 - (x.length - 1 - i) = i := by omega
    rw [hget1 (x.length - 1 - i) (by omega), h1]
    exact List.getElem?_eq_getElem hi
  · apply List.ext_getElem?
    intro j
    by_cases hj : j < x.length
    · have h1 : x.length - 1 - (x.length - 1 - j) = j := by omega
      rw [hget2 j (by omega), hlen1, hget1 (x.length - 1 - j) (by omega), h1]
    · rw [List.getElem?_eq_none (by omega), List.getElem?_eq_none (by omega)]

/-- C14 at `exSeq3` with destinations `exSeq0`: both calls complete and the second
result is `exSeq3` again. -/
theorem forward_reverse_involution_witness :
    ∃ y1 w1 : Sequence ℚ, forward_reverse exSeq0 exSeq3 = some (y1, exSeq3) ∧
      forward_reverse exSeq0 y1 = some (w1, y1) ∧ w1 = exSeq3 := by
  obtain ⟨y1, w1, h1, -, -, h2, h3⟩ :=
    forward_reverse_involution exSeq0 exSeq0 exSeq3 rfl rfl
  exact ⟨y1, w1, h1, h2, h3⟩

end ReverseTheorems

section BackwardReverseTheorems
variable [CommRing R]

/-- After `k` steps of the loop of `backward_reverse` the last `k` positions of `x` have
received the gradients of the first `k` elements of `y` in reverse order. -/
theorem backward_reverse_loop (y x : Sequence R) (hlen : y.length = x.length) (k : Nat)
    (hk : k ≤ x.length) :
    ∃ xk : Sequence R,
      (List.range k).foldlM (backward_reverse_step y x.length) x = some xk ∧
      xk.length = x.length ∧
      ∀ j, xk[j]? = if x.length - k ≤ j ∧ j < x.length then
          (x[j]?).bind fun xj => (y[x.length - 1 - j]?).map fun yj =>
            Batch.mk xj.v (xj.d.addAssign yj.d)
        else x[j]? := by
  induction k with
  | zero =>
    refine ⟨x, rfl, rfl, ?_⟩
    intro j
    have : ¬ (x.length - 0 ≤ j ∧ j < x.length) := by omega
    rw [if_neg this]
  | succ k ih =>
    obtain ⟨xk, hfold, hxk, hget⟩ := ih (by omega)
    have hkl : k < y.length := by omega
    have hjl : x.length - k - 1 < x.length := by omega
    obtain ⟨yk, hyk⟩ : ∃ yk, y[k]? = some yk := ⟨y[k], List.getElem?_eq_getElem hkl⟩
    obtain ⟨xt, hxt⟩ : ∃ xt, x[x.length - k - 1]? = some xt :=
      ⟨x[x.length - k - 1], List.getElem?_eq_getElem hjl⟩
    have hacc : xk[x.length - k - 1]? = some xt := by
      have h1 : ¬ (x.length - k ≤ x.length - k - 1 ∧ x.length - k - 1 < x.length) := by omega
      rw [hget, if_neg h1, hxt]
    have hstep : backward_reverse_step y x.length xk k
        = some (xk.set (x.length - k - 1) (Batch.mk xt.v (xt.d.addAssign yk.d))) := by
      simp [backward_reverse_step, hyk, hacc]
    refine ⟨xk.set (x.length - k - 1) (Batch.mk xt.v (xt.d.addAssign yk.d)), ?_,
      by simp [hxk], ?_⟩
    · rw [List.range_succ, List.foldlM_append, hfold]
      simp [hstep]
    · intro j
      rw [List.getElem?_set, hget j]
      by_cases hj : x.length - k - 1 = j
      · have h1 : x.length - k - 1 < xk.length := by omega
        have h2 : x.length - (k + 1) ≤ j ∧ j < x.length := by omega
        have h3 : x.length - 1 - j = k := by omega
        rw [if_pos hj, if_pos h1, if_pos h2, h3, hyk, ← hj, hxt]
        rfl
      · rw [if_neg hj]
        by_cases h2 : x.length - k ≤ j ∧ j < x.length
        · have h3 : x.length - (k + 1) ≤ j ∧ j < x.length := by omega
          rw [if_pos h2, if_pos h3]
        · have h3 : ¬ (x.length - (k + 1) ≤ j ∧ j < x.length) := by omega
          rw [if_neg h2, if_neg h3]

/-- With sequences of the same length, `backward_reverse` completes, returns `y`
untouched, and `x[j]` keeps its value and receives the gradient of `y[N - 1 - j]`. -/
theorem backward_reverse_run (y x : Sequence R) (hlen : y.length = x.length) :
    ∃ x1 : Sequence R, backward_reverse y x = some (y, x1) ∧ x1.length = x.length ∧
      ∀ j, j < x.length → ∃ xj yj : Batch R, x[j]? = some xj ∧
        y[x.length - 1 - j]? = some yj ∧
        x1[j]? = some (Batch.mk xj.v (xj.d.addAssign yj.d)) := by
  obtain ⟨x1, hfold, hx1, hget⟩ := backward_reverse_loop y x hlen x.length (le_refl _)
  refine ⟨x1, by simp [backward_reverse, hfold], hx1, ?_⟩
  intro j hj
  have h : x.length - x.length ≤ j ∧ j < x.length := by omega
  have hj2 : x.length - 1 - j < y.length := by omega
  refine ⟨x[j], y[x.length - 1 - j], List.getElem?_eq_getElem hj,
    List.getElem?_eq_getElem hj2, ?_⟩
  rw [hget j, if_pos h, List.getElem?_eq_getElem hj, List.getElem?_eq_getElem hj2]
  rfl

/-- C15: `backward_reverse` is the index-permuting adjoint of reversal.  For sequences
`x`, `y` of the same length `N` and element shape `[r, c]` the call completes, returns
`y` as it was, and for every `i < N` the batch `x[N-1-i]` keeps its value and has
gradient `x[N-1-i].d_old + y[i].d`.  With the gradients of `x` and of a third sequence
`w` zero beforehand, a second call from the result into `w` gives `w[i].d = y[i].d` for
every `i`, the values of `w` staying as they were. -/
theorem backward_reverse_adjoint (y x w : Sequence R) (r c : Nat)
    (hy : y.length = x.length) (hw : w.length = x.length)
    (hxs : ∀ e ∈ x, e.Shaped r c) (hys : ∀ e ∈ y, e.Shaped r c)
    (hws : ∀ e ∈ w, e.Shaped r c) :
    ∃ x1 : Sequence R, backward_reverse y x = some (y, x1) ∧ x1.length = x.length ∧
      (∀ i, i < x.length → ∃ xt yi xt1 : Batch R,
        x[x.length - 1 - i]? = some xt ∧ y[i]? = some yi ∧
        x1[x.length - 1 - i]? = some xt1 ∧ xt1.v = xt.v ∧
        ∀ a b, a < r → b < c → xt1.d.get a b = xt.d.get a b + yi.d.get a b) ∧
      ((∀ e ∈ x, ∀ a b, e.d.get a b = 0) → (∀ e ∈ w, ∀ a b, e.d.get a b = 0) →
        ∃ w1 : Sequence R, backward_reverse x1 w = some (x1, w1) ∧ w1.length = x.length ∧
          ∀ i, i < x.length → ∃ yi wi wi1 : Batch R,
            y[i]? = some yi ∧ w[i]? = some wi ∧ w1[i]? = some wi1 ∧ wi1.v = wi.v ∧
            ∀ a b, a < r → b < c → wi1.d.get a b = yi.d.get a b) := by
  obtain ⟨x1, hrun1, hlen1, hget1⟩ := backward_reverse_run y x hy
  refine ⟨x1, hrun1, hlen1, ?_, ?_⟩
  · intro i hi
    obtain ⟨xj, yj, hxj, hyj, hx1j⟩ := hget1 (x.length - 1 - i) (by omega)
    have h1 : x.length - 1 - (x.length - 1 - i) = i := by omega
    rw [h1] at hyj
    refine ⟨xj, yj, _, hxj, hyj, hx1j, rfl, ?_⟩
    intro a b _ _
    simp [Tensor2.addAssign]
  · intro hx0 hw0
    obtain ⟨w1, hrun2, hlen2, hget2⟩ := backward_reverse_run x1 w (by omega)
    refine ⟨w1, hrun2, by omega, ?_⟩
    intro i hi
    obtain ⟨wi, xm1, hwi, hxm1, hw1i⟩ := hget2 i (by omega)
    obtain ⟨xm, yi, hxm, hyi, hx1m⟩ := hget1 (w.length - 1 - i) (by omega)
    have h1 : x.length - 1 - (w.length - 1 - i) = i := by omega
    rw [h1] at hyi
    rw [hx1m] at hxm1
    have hxm1eq : xm1 = Batch.mk xm.v (xm.d.addAssign yi.d) := (Option.some.inj hxm1).symm
    refine ⟨yi, wi, _, hyi, hwi, hw1i, rfl, ?_⟩
    intro a b _ _
    simp [hxm1eq, Tensor2.addAssign, hw0 wi (List.getElem?_mem hwi),
      hx0 xm (List.getElem?_mem hxm)]

/-- C15 at `y := exSeq3` (gradients `10, 20, 30`) and `x := w := exSeq0`: the first
call completes, and the second call returns a sequence whose element `0` has gradient
`10`, the gradient of `y[0]`. -/
theorem backward_reverse_adjoint_witness :
    ∃ x1 w1 : Sequence ℚ, backward_reverse exSeq3 exSeq0 = some (exSeq3, x1) ∧
      backward_reverse x1 exSeq0 = some (x1, w1) ∧
      ∃ wi1 : Batch ℚ, w1[0]? = some wi1 ∧ wi1.d.get 0 0 = 10 := by
  have hshape3 : ∀ e ∈ exSeq3, e.Shaped 1 1 := by
    intro e he
    simp only [exSeq3, List.mem_cons, List.mem_singleton, List.not_mem_nil, or_false] at he
    rcases he with rfl | rfl | rfl <;> exact ⟨rfl, rfl, rfl, rfl⟩
  have hshape0 : ∀ e ∈ exSeq0, e.Shaped 1 1 := by
    intro e he
    simp only [exSeq0, List.mem_cons, List.mem_singleton, List.not_mem_nil, or_false] at he
    rcases he with rfl | rfl | rfl <;> exact ⟨rfl, rfl, rfl, rfl⟩
  have hzero : ∀ e ∈ exSeq0, ∀ a b, e.d.get a b = 0 := by
    intro e he a b
    simp only [exSeq0, List.mem_cons, List.mem_singleton, List.not_mem_nil, or_false] at he
    rcases he with rfl | rfl | rfl <;> rfl
  obtain ⟨x1, hrun1, -, -, htwice⟩ :=
    backward_reverse_adjoint exSeq3 exSeq0 exSeq0 1 1 rfl rfl hshape0 hshape3 hshape0
  obtain ⟨w1, hrun2, -, hget⟩ := htwice hzero hzero
  obtain ⟨yi, wi, wi1, hyi, -, hw1, -, hd⟩ := hget 0 (by decide)
  refine ⟨x1, w1, hrun1, hrun2, wi1, hw1, ?_⟩
  have hyi0 : yi = Batch.const 1 1 1 10 := by
    have h : exSeq3[0]? = some (Batch.const 1 1 1 10) := rfl
    rw [h] at hyi
    exact (Option.some.inj hyi).symm
  rw [hd 0 0 (by decide) (by decide), hyi0]
  rfl

end BackwardReverseTheorems

section AbortTheorems
variable [LinearOrderedField R]

/-- C16: an unsupported nonlinearity code is fatal, and only that.  For every integer
`nl` and all batches, each of `forward_nonlin`, the in-place `backward_nonlin` and the
two-batch `backward_nonlin` aborts exactly when `nl` is none of `0` (identity),
`1` (sigmoid), `2` (tanh), `3` (relu); for these four codes the call completes. -/
theorem nonlin_abort_iff_invalid_code (P : Numerics R) (y x : Batch R) (nl : Int) :
    (forward_nonlin P y x nl = none ↔ ¬ (nl = 0 ∨ nl = 1 ∨ nl = 2 ∨ nl = 3)) ∧
    (backward_nonlin y nl = none ↔ ¬ (nl = 0 ∨ nl = 1 ∨ nl = 2 ∨ nl = 3)) ∧
    (backward_nonlin2 y x nl = none ↔ ¬ (nl = 0 ∨ nl = 1 ∨ nl = 2 ∨ nl = 3)) ∧
    ((nl = 0 ∨ nl = 1 ∨ nl = 2 ∨ nl = 3) →
      (forward_nonlin P y x nl).isSome = true ∧ (backward_nonlin y nl).isSome = true ∧
      (backward_nonlin2 y x nl).isSome = true) := by
  refine ⟨?_, ?_, ?_, ?_⟩
  · unfold forward_nonlin LIN SIG TANH RELU
    split_ifs with h0 h1 h2 h3 <;> simp <;> omega
  · unfold backward_nonlin LIN SIG TANH RELU
    split_ifs with h0 h1 h2 h3 <;> simp <;> omega
  · unfold backward_nonlin2 LIN SIG TANH RELU
    split_ifs with h0 h1 h2 h3 <;> simp <;> omega
  · intro h
    rcases h with rfl | rfl | rfl | rfl <;> exact ⟨rfl, rfl, rfl⟩

/-- C16 at the code `3` with the batches `yrelu`, `xcex`: all three calls complete. -/
theorem nonlin_abort_iff_invalid_code_witness :
    (forward_nonlin numQ yrelu xcex 3).isSome = true ∧ (backward_nonlin yrelu 3).isSome = true ∧
    (backward_nonlin2 yrelu xcex 3).isSome = true :=
  (nonlin_abort_iff_invalid_code numQ yrelu xcex 3).2.2.2 (Or.inr (Or.inr (Or.inr rfl)))

/-- The traced `forward_full1` returns exactly when, and what, `forward_full1` returns. -/
theorem forward_full1_trace_done_iff (P : Numerics R) (y : Batch R) (W : Params R)
    (x : Batch R) (nl : Int) (res : Batch R × Params R × Batch R) :
    forward_full1_trace P y W x nl = Outcome.done res ↔ forward_full1 P y W x nl = some res := by
  unfold forward_full1_trace forward_full1 forward_lin1_trace forward_lin1
    forward_nonlin_trace forward_nonlin
  dsimp only
  split_ifs <;> simp

/-- The traced `backward_full1` returns exactly when, and what, `backward_full1` returns. -/
theorem backward_full1_trace_done_iff (y : Batch R) (W : Params R) (x : Batch R) (nl : Int)
    (res : Batch R × Params R × Batch R) :
    backward_full1_trace y W x nl = Outcome.done res ↔ backward_full1 y W x nl = some res := by
  unfold backward_full1_trace backward_full1 backward_nonlin_trace backward_nonlin
  split_ifs <;> simp

/-- The traced leaf primitives return exactly when, and what, the plain ones return. -/
theorem leaf_trace_done_iff (P : Numerics R) (y x z : Batch R) (W : Params R) (nl : Int) :
    (∀ res, forward_nonlin_trace P y x nl = Outcome.done res ↔
      forward_nonlin P y x nl = some res) ∧
    (∀ res, backward_nonlin_trace y nl = Outcome.done res ↔ backward_nonlin y nl = some res) ∧
    (∀ res, backward_nonlin2_trace y x nl = Outcome.done res ↔
      backward_nonlin2 y x nl = some res) ∧
    (∀ res, forward_lin1_trace y W x = Outcome.done res ↔ forward_lin1 y W x = some res) ∧
    (∀ res, forward_softmax_trace P z W x = Outcome.done res ↔
      forward_softmax P z W x = some res) ∧
    (∀ res, forward_stack_trace z x y = Outcome.done res ↔ forward_stack z x y = some res) := by
  refine ⟨?_, ?_, ?_, ?_, ?_, ?_⟩
  · intro res
    unfold forward_nonlin_trace forward_nonlin
    split_ifs <;> simp
  · intro res
    unfold backward_nonlin_trace backward_nonlin
    split_ifs <;> simp
  · intro res
    unfold backward_nonlin2_trace backward_nonlin2
    split_ifs <;> simp
  · intro res
    unfold forward_lin1_trace forward_lin1
    dsimp only
    split_ifs <;> simp
  · intro res
    unfold forward_softmax_trace forward_softmax
    dsimp only
    split_ifs <;> simp
  · intro res
    unfold forward_stack_trace forward_stack
    dsimp only
    split_ifs <;> simp

/-- The traced nonlinear gates return exactly when, and what, the plain ones return. -/
theorem nonlingate_trace_done_iff (P : Numerics R) (fresh : Nat → Nat → Batch R)
    (out state go : Batch R) (nl : Int) (res : Batch R × Batch R × Batch R) :
    (forward_nonlingate_trace P fresh out state go nl = Outcome.done res ↔
      forward_nonlingate P fresh out state go nl = some res) ∧
    (backward_nonlingate_trace P fresh out state go nl = Outcome.done res ↔
      backward_nonlingate P fresh out state go nl = some res) := by
  refine ⟨?_, ?_⟩
  · unfold forward_nonlingate_trace forward_nonlingate forward_nonlin_trace forward_nonlin
    dsimp only
    split_ifs <;> simp
  · unfold backward_nonlingate_trace backward_nonlingate forward_nonlin_trace forward_nonlin
      backward_nonlin2_trace backward_nonlin2
    dsimp only
    split_ifs <;> simp

/-- The traced `forward_stack_delay` returns exactly when, and what, the plain one
returns. -/
theorem forward_stack_delay_trace_done_iff (z x : Batch R) (seq : Sequence R) (last : Int)
    (res : Batch R × Batch R × Sequence R) :
    forward_stack_delay_trace z x seq last = Outcome.done res ↔
      forward_stack_delay z x seq last = some res := by
  unfold forward_stack_delay_trace forward_stack_delay Sequence.rows Sequence.cols
  cases h0 : seq[0]? with
  | none => simp
  | some y0 =>
    cases hl : seq[last.toNat]? with
    | none =>
      simp only [Option.bind_eq_bind, Option.some_bind, Option.map_some', Option.none_bind]
      split_ifs <;> simp
    | some yl =>
      simp only [Option.bind_eq_bind, Option.some_bind, Option.map_some']
      split_ifs <;> simp

/-- With valid shapes and an unsupported code the traced `forward_full1` aborts after
`forward_lin1` has run: at the abort `y.v` holds the affine output, `y.d`, `W` and `x` are
as before the call. -/
theorem forward_full1_trace_bad_code (P : Numerics R) (y : Batch R) (W : Params R)
    (x : Batch R) (nl : Int) (n m bs : Nat) (hm : 1 ≤ m) (hW : W.Shaped n m)
    (hx : x.Shaped (m - 1) bs) (hy : y.Shaped n bs)
    (hbad : ¬ (nl = 0 ∨ nl = 1 ∨ nl = 2 ∨ nl = 3)) :
    ∃ y1 : Batch R, forward_full1_trace P y W x nl = Outcome.aborted (y1, W, x) ∧
      forward_lin1 y W x = some (y1, W, x) ∧ y1.d = y.d ∧
      ∀ i b, i < n → b < bs → y1.v.get i b
        = ∑ j in range (m - 1), W.v.get i (j + 1) * x.v.get j b + W.v.get i 0 := by
  obtain ⟨hWr, hWc, -, -⟩ := hW
  obtain ⟨hxr, hxc, -, -⟩ := hx
  obtain ⟨hyr, hyc, -, -⟩ := hy
  have hcond : y.rows = W.v.rows ∧ y.cols = x.cols ∧ (x.rows : Int) = (W.v.cols : Int) - 1 := by
    refine ⟨?_, ?_, ?_⟩
    · simp [Batch.rows, hyr, hWr]
    · simp [Batch.cols, hyc, hxc]
    · simp only [Batch.rows, hxr, hWc]
      omega
  have h0 : ¬ nl = LIN := fun h => hbad (Or.inl h)
  have h1 : ¬ nl = SIG := fun h => hbad (Or.inr (Or.inl h))
  have h2 : ¬ nl = TANH := fun h => hbad (Or.inr (Or.inr (Or.inl h)))
  have h3 : ¬ nl = RELU := fun h => hbad (Or.inr (Or.inr (Or.inr h)))
  refine ⟨Batch.mk (y.v.assign (((W.v.slice 0 1 W.v.rows (W.v.cols - 1)).contract10 x.v).add
    (W.v.chip01.reshapeBroadcastCols W.v.rows x.v.cols))) y.d, ?_, ?_, rfl, ?_⟩
  · unfold forward_full1_trace forward_lin1_trace forward_nonlin_trace
    dsimp only
    rw [if_pos hcond]
    dsimp only
    rw [if_neg h0, if_neg h1, if_neg h2, if_neg h3]
  · unfold forward_lin1
    dsimp only
    rw [if_pos hcond]
  · intro i b _ _
    simp [Tensor2.assign, Tensor2.add, Tensor2.contract10, Tensor2.slice, Tensor2.chip01,
      Tensor1.reshapeBroadcastCols, hWc, add_comm 1]

/-- C18 as stated fails: `forward_full1` on `exY`, `exW`, `exX` (valid shapes) with the
unsupported code `7` aborts after `forward_lin1` has run; at the abort `y.v[0,0]` is the
affine output `14`, not the `7` it held before the call. -/
theorem forward_full1_partial_write_counterexample :
    ∃ ya : Batch ℚ, forward_full1_trace numQ exY exW exX 7 = Outcome.aborted (ya, exW, exX) ∧
      exY.v.get 0 0 = 7 ∧ ya.v.get 0 0 = 14 ∧ ya.v.get 0 0 ≠ exY.v.get 0 0 := by
  refine ⟨Batch.mk (exY.v.assign (((exW.v.slice 0 1 2 (3 - 1)).contract10 exX.v).add
    (exW.v.chip01.reshapeBroadcastCols 2 2))) exY.d, rfl, rfl, ?_, ?_⟩ <;>
    norm_num [exW, exX, exY, Tensor2.assign, Tensor2.add, Tensor2.contract10, Tensor2.slice,
      Tensor2.chip01, Tensor1.reshapeBroadcastCols, Finset.sum_range_succ]

/-- C18, amended: no partial failure except in `forward_full1`.  Whenever
`forward_nonlin`, either `backward_nonlin`, `forward_lin1`, `forward_softmax`,
`forward_stack`, `forward_stack_delay`, `backward_full1`, `forward_nonlingate` or
`backward_nonlingate` aborts, the memory of its arguments at the abort is the memory
before the call; the three composite ones do abort on an unsupported code.  When
`forward_full1` aborts, `y.d`, `W` and `x` are as before the call, and `y.v` is either as
before or already the output of `forward_lin1`; with valid shapes and an unsupported code
it does abort, with `y.v` overwritten by the affine output.  The remaining primitives
contain no `abort()` and no `assert`. -/
theorem no_partial_failure_except_forward_full1 (P : Numerics R)
    (fresh : Nat → Nat → Batch R) (y x z out state go : Batch R) (W : Params R)
    (seq : Sequence R) (last nl : Int) :
    (∀ mem, forward_nonlin_trace P y x nl = Outcome.aborted mem → mem = (y, x)) ∧
    (∀ mem, backward_nonlin_trace y nl = Outcome.aborted mem → mem = y) ∧
    (∀ mem, backward_nonlin2_trace y x nl = Outcome.aborted mem → mem = (y, x)) ∧
    (∀ mem, forward_lin1_trace y W x = Outcome.aborted mem → mem = (y, W, x)) ∧
    (∀ mem, forward_softmax_trace P z W x = Outcome.aborted mem → mem = (z, W, x)) ∧
    (∀ mem, forward_stack_trace z x y = Outcome.aborted mem → mem = (z, x, y)) ∧
    (∀ mem, forward_stack_delay_trace z x seq last = Outcome.aborted mem →
      mem = (z, x, seq)) ∧
    (∀ mem, backward_full1_trace y W x nl = Outcome.aborted mem → mem = (y, W, x)) ∧
    (∀ mem, forward_nonlingate_trace P fresh out state go nl = Outcome.aborted mem →
      mem = (out, state, go)) ∧
    (∀ mem, backward_nonlingate_trace P fresh out state go nl = Outcome.aborted mem →
      mem = (out, state, go)) ∧
    (¬ (nl = 0 ∨ nl = 1 ∨ nl = 2 ∨ nl = 3) →
      backward_full1_trace y W x nl = Outcome.aborted (y, W, x) ∧
      forward_nonlingate_trace P fresh out state go nl = Outcome.aborted (out, state, go) ∧
      backward_nonlingate_trace P fresh out state go nl
        = Outcome.aborted (out, state, go)) ∧
    (∀ mem, forward_full1_trace P y W x nl = Outcome.aborted mem →
      mem.1.d = y.d ∧ mem.2 = (W, x) ∧
      (mem.1.v = y.v ∨ ∃ y1 : Batch R, forward_lin1 y W x = some (y1, W, x) ∧ mem.1 = y1)) ∧
    (∀ n m bs : Nat, 1 ≤ m → W.Shaped n m → x.Shaped (m - 1) bs → y.Shaped n bs →
      ¬ (nl = 0 ∨ nl = 1 ∨ nl = 2 ∨ nl = 3) →
      ∃ y1 : Batch R, forward_full1_trace P y W x nl = Outcome.aborted (y1, W, x) ∧
        forward_lin1 y W x = some (y1, W, x) ∧ y1.d = y.d ∧
        ∀ i b, i < n → b < bs → y1.v.get i b
          = ∑ j in range (m - 1), W.v.get i (j + 1) * x.v.get j b + W.v.get i 0) := by
  have hfn : ∀ (a b : Batch R) mem,
      forward_nonlin_trace P a b nl = Outcome.aborted mem → mem = (a, b) := by
    intro a b mem h
    unfold forward_nonlin_trace at h
    split_ifs at h
    exact (Outcome.aborted.inj h).symm
  have hbn : ∀ (a : Batch R) mem, backward_nonlin_trace a nl = Outcome.aborted mem → mem = a := by
    intro a mem h
    unfold backward_nonlin_trace at h
    split_ifs at h
    exact (Outcome.aborted.inj h).symm
  have hbn2 : ∀ (a b : Batch R) mem,
      backward_nonlin2_trace a b nl = Outcome.aborted mem → mem = (a, b) := by
    intro a b mem h
    unfold backward_nonlin2_trace at h
    split_ifs at h
    exact (Outcome.aborted.inj h).symm
  have hfnd : ∀ (a b : Batch R) res,
      forward_nonlin_trace P a b nl = Outcome.done res → nl = 0 ∨ nl = 1 ∨ nl = 2 ∨ nl = 3 := by
    intro a b res h
    unfold forward_nonlin_trace LIN SIG TANH RELU at h
    split_ifs at h <;> omega
  have hbn2a : ∀ (a b : Batch R) mem, (nl = 0 ∨ nl = 1 ∨ nl = 2 ∨ nl = 3) →
      backward_nonlin2_trace a b nl ≠ Outcome.aborted mem := by
    intro a b mem hv h
    unfold backward_nonlin2_trace LIN SIG TANH RELU at h
    split_ifs at h
    omega
  have hlin : ∀ mem, forward_lin1_trace y W x = Outcome.aborted mem → mem = (y, W, x) := by
    intro mem h
    unfold forward_lin1_trace at h
    dsimp only at h
    split_ifs at h
    exact (Outcome.aborted.inj h).symm
  refine ⟨hfn y x, hbn y, hbn2 y x, hlin, ?_, ?_, ?_, ?_, ?_, ?_, ?_, ?_,
    fun n m bs hm hW hx hy hbad => forward_full1_trace_bad_code P y W x nl n m bs hm hW hx hy hbad⟩
  · intro mem h
    unfold forward_softmax_trace at h
    dsimp only at h
    split_ifs at h with h1 h2 h3
    · exact absurd rfl h3
    · exact (Outcome.aborted.inj h).symm
    · exact (Outcome.aborted.inj h).symm
  · intro mem h
    unfold forward_stack_trace at h
    dsimp only at h
    split_ifs at h
    exact (Outcome.aborted.inj h).symm
  · intro mem h
    unfold forward_stack_delay_trace at h
    split at h
    · exact absurd h (by simp)
    · dsimp only at h
      split_ifs at h
      · split at h <;> exact absurd h (by simp)
      · exact (Outcome.aborted.inj h).symm
  · intro mem h
    unfold backward_full1_trace at h
    split at h
    · exact absurd h (by simp)
    · rename_i ya hya
      rw [hbn y ya hya] at h
      exact (Outcome.aborted.inj h).symm
    · exact absurd h (by simp)
  · intro mem h
    unfold forward_nonlingate_trace at h
    dsimp only at h
    split at h
    · exact absurd h (by simp)
    · rename_i ta sa hsa
      have := hfn _ _ _ hsa
      rw [(Prod.mk.inj this).2] at h
      exact (Outcome.aborted.inj h).symm
    · exact absurd h (by simp)
  · intro mem h
    unfold backward_nonlingate_trace at h
    dsimp only at h
    split at h
    · rename_i t1 s1 hdone
      split at h
      · exact absurd h (by simp)
      · rename_i ta sa hsa
        exact absurd hsa (hbn2a _ _ _ (hfnd _ _ _ hdone))
      · exact absurd h (by simp)
    · rename_i ta sa hsa
      have := hfn _ _ _ hsa
      rw [(Prod.mk.inj this).2] at h
      exact (Outcome.aborted.inj h).symm
    · exact absurd h (by simp)
  · intro hbad
    have h0 : ¬ nl = LIN := fun h => hbad (Or.inl h)
    have h1 : ¬ nl = SIG := fun h => hbad (Or.inr (Or.inl h))
    have h2 : ¬ nl = TANH := fun h => hbad (Or.inr (Or.inr (Or.inl h)))
    have h3 : ¬ nl = RELU := fun h => hbad (Or.inr (Or.inr (Or.inr h)))
    refine ⟨?_, ?_, ?_⟩
    · simp [backward_full1_trace, backward_nonlin_trace, h0, h1, h2, h3]
    · simp [forward_nonlingate_trace, forward_nonlin_trace, h0, h1, h2, h3]
    · simp [backward_nonlingate_trace, forward_nonlin_trace, h0, h1, h2, h3]
  · intro mem h
    unfold forward_full1_trace at h
    split at h
    · rename_i y1 W2 x1 hdone
      have hW : (y1.d = y.d ∧ W2 = W ∧ x1 = x) ∧ forward_lin1 y W x = some (y1, W2, x1) := by
        unfold forward_lin1_trace at hdone
        unfold forward_lin1
        dsimp only at hdone ⊢
        split_ifs at hdone ⊢ with hc
        have he := Outcome.done.inj hdone
        simp only [Prod.mk.injEq] at he
        obtain ⟨rfl, rfl, rfl⟩ := he
        exact ⟨⟨rfl, rfl, rfl⟩, rfl⟩
      obtain ⟨⟨hd, rfl, rfl⟩, hrun⟩ := hW
      split at h
      · exact absurd h (by simp)
      · rename_i ya xa hab
        have hya := hfn _ _ _ hab
        have hmem := (Outcome.aborted.inj h).symm
        rw [(Prod.mk.inj hya).1] at hmem
        rw [hmem]
        exact ⟨hd, rfl, Or.inr ⟨y1, hrun, rfl⟩⟩
      · exact absurd h (by simp)
    · rename_i m0 hab
      have hm0 := hlin m0 hab
      have hmem := (Outcome.aborted.inj h).symm
      rw [hm0] at hmem
      rw [hmem]
      exact ⟨rfl, rfl, Or.inl rfl⟩
    · exact absurd h (by simp)

/-- C18 amended, at `exY`, `exW`, `exX` with the unsupported code `7`: `backward_full1`
and both nonlinear gates abort with the memory they were given. -/
theorem no_partial_failure_except_forward_full1_witness :
    backward_full1_trace exY exW exX 7 = Outcome.aborted (exY, exW, exX) ∧
    forward_nonlingate_trace numQ freshQ exY exX exX 7 = Outcome.aborted (exY, exX, exX) ∧
    backward_nonlingate_trace numQ freshQ exY exX exX 7 = Outcome.aborted (exY, exX, exX) :=
  (no_partial_failure_except_forward_full1 numQ freshQ exY exX exZ exY exX exX exW exSeq 0
    7).2.2.2.2.2.2.2.2.2.2.1 (by decide)

end AbortTheorems

section FullTheorems
variable [LinearOrderedField R]

/-- For a valid code the in-place `backward_nonlin` multiplies the gradient by the
table's output-derivative of the value. -/
theorem backward_nonlin_table (P : Numerics R) (y : Batch R) (nl : Int)
    (entry : Nonlinearity R) (hnl : 0 ≤ nl)
    (hentry : (nonlinearities P)[nl.toNat]? = some entry) :
    backward_nonlin y nl = some (Batch.mk y.v (Tensor2.mk y.d.rows y.d.cols
      (fun i j => entry.yderiv (y.v.get i j) * y.d.get i j))) := by
  rcases table_entry_cases P nl entry hnl hentry with ⟨rfl, rfl⟩ | ⟨rfl, rfl⟩ | ⟨rfl, rfl⟩ |
    ⟨rfl, rfl⟩
  · simp [backward_nonlin, backward_identity, Tensor2.assign]
  · simp only [backward_nonlin, LIN, SIG, backward_sigmoid, Tensor2.assign, Tensor2.mul,
      Tensor2.neg, Tensor2.addScalar]
    simp only [show ¬ ((1 : Int) = 0) by decide, if_false, if_true, Option.some.injEq,
      Batch.mk.injEq, Tensor2.mk.injEq, true_and]
    funext i j
    ring
  · simp only [backward_nonlin, LIN, SIG, TANH, backward_tanh, Tensor2.assign, Tensor2.mul,
      Tensor2.neg, Tensor2.addScalar]
    simp only [show ¬ ((2 : Int) = 0) by decide, show ¬ ((2 : Int) = 1) by decide, if_false,
      if_true, Option.some.injEq, Batch.mk.injEq, Tensor2.mk.injEq, true_and]
    funext i j
    ring
  · simp only [backward_nonlin, LIN, SIG, TANH, RELU, backward_relu, Tensor2.assign,
      Tensor2.mul, Tensor2.unaryExpr]
    simp only [show ¬ ((3 : Int) = 0) by decide, show ¬ ((3 : Int) = 1) by decide,
      show ¬ ((3 : Int) = 2) by decide, if_false, if_true, Option.some.injEq,
      Batch.mk.injEq, Tensor2.mk.injEq, true_and]
    funext i j
    ring

/-- C19 as stated fails at the sigmoid code when the table's `sigmoid` is the saturating
helper (`numSat`): on `exY`, `exW`, `exX` the affine value at `[1,1]` is `48`; the enabled
`forward_full1` writes Eigen's `esigmoid 48 = 49/50` there, the table's forward function
and the disabled branch give `sigmoid 48 = 31/32`. -/
theorem full1_saturating_sigmoid_counterexample :
    ∃ (entry : Nonlinearity ℚ) (y1 yA : Batch ℚ),
      (nonlinearities numSat)[SIG.toNat]? = some entry ∧
      forward_full1 numSat exY exW exX SIG = some (y1, exW, exX) ∧
      forward_full1_alt numSat exY exW exX SIG = some (yA, exW, exX) ∧
      (∑ j in range (3 - 1), exW.v.get 1 (j + 1) * exX.v.get j 1 + exW.v.get 1 0 = 48) ∧
      y1.v.get 1 1 = 49 / 50 ∧ entry.nonlin 48 = 31 / 32 ∧ yA.v.get 1 1 = 31 / 32 ∧
      y1.v.get 1 1 ≠ yA.v.get 1 1 := by
  refine ⟨_, _, _, rfl, rfl, rfl, ?_, ?_, ?_, ?_, ?_⟩ <;>
    norm_num [nonlinearities, numSat, limexpQ, expQ, forward_sigmoid, exW, exX, exY,
      Tensor2.assign, Tensor2.add, Tensor2.contract10, Tensor2.slice, Tensor2.chip01,
      Tensor1.reshapeBroadcastCols, Tensor2.unaryExpr, Finset.sum_range_succ, SIG]

/-- C19, amended: the full layer is affine-then-nonlinearity forward and
nonlinearity-then-affine backward.  For a valid code `nl` with row `entry` of
`nonlinearities` there is one scalar function `f` that `forward_nonlin` maps over its
input (the identity, Eigen's coefficient-wise sigmoid, Eigen's coefficient-wise tanh,
relu), and for valid shapes: the enabled `forward_full1` completes with
`y.v[i,b] = f (Σ_j W.v[i,j+1] * x.v[j,b] + W.v[i,0])`; the disabled branch completes with
`entry.nonlin` of the same affine value; the two agree at every entry where `f` and
`entry.nonlin` agree on that value, and return the same for the identity and relu codes
and whenever `f` and `entry.nonlin` are the same function.  The enabled `backward_full1`
completes, rewrites `y.d` to `t = entry.yderiv (y.v) * y.d_old`, and its `W` and `x` are
those of `backward_lin1` run on `t`, the same `W` and `x` the disabled branch returns
(which leaves `y` as it was). -/
theorem full1_enabled_agrees_with_alternate (P : Numerics R) (y : Batch R) (W : Params R)
    (x : Batch R) (nl : Int) (entry : Nonlinearity R) (n m bs : Nat)
    (hm : 1 ≤ m) (hW : W.Shaped n m) (hx : x.Shaped (m - 1) bs) (hy : y.Shaped n bs)
    (hnl : 0 ≤ nl) (hentry : (nonlinearities P)[nl.toNat]? = some entry) :
    ∃ f : R → R,
      ((nl = LIN → f = fun u => u) ∧ (nl = SIG → f = P.esigmoid) ∧
        (nl = TANH → f = P.etanh) ∧ (nl = RELU → f = fun u => if u ≤ 0 then 0 else u)) ∧
      (∀ t s : Batch R, ∃ t1 : Batch R, forward_nonlin P t s nl = some (t1, s) ∧
        ∀ i b, t1.v.get i b = f (s.v.get i b)) ∧
      (∃ y1 yA : Batch R, forward_full1 P y W x nl = some (y1, W, x) ∧ y1.d = y.d ∧
        (∀ i b, i < n → b < bs → y1.v.get i b
          = f (∑ j in range (m - 1), W.v.get i (j + 1) * x.v.get j b + W.v.get i 0)) ∧
        forward_full1_alt P y W x nl = some (yA, W, x) ∧ yA.d = y.d ∧
        (∀ i b, i < n → b < bs → yA.v.get i b
          = entry.nonlin (∑ j in range (m - 1), W.v.get i (j + 1) * x.v.get j b
              + W.v.get i 0)) ∧
        (∀ i b, i < n → b < bs →
          f (∑ j in range (m - 1), W.v.get i (j + 1) * x.v.get j b + W.v.get i 0)
            = entry.nonlin (∑ j in range (m - 1), W.v.get i (j + 1) * x.v.get j b
                + W.v.get i 0) →
          y1.v.get i b = yA.v.get i b) ∧
        ((nl = LIN ∨ nl = RELU ∨ ∀ u, f u = entry.nonlin u) →
          forward_full1 P y W x nl = forward_full1_alt P y W x nl)) ∧
      (∃ (y1 : Batch R) (W1 : Params R) (x1 : Batch R),
        backward_full1 y W x nl = some (y1, W1, x1) ∧ y1.v = y.v ∧
        (∀ i b, i < n → b < bs →
          y1.d.get i b = entry.yderiv (y.v.get i b) * y.d.get i b) ∧
        backward_lin1 y1 W x = (y1, W1, x1) ∧
        backward_full1_alt P y W x nl = some (y, W1, x1)) := by
  obtain ⟨f, hcodes, hsame, -, hnon⟩ := forward_nonlin_applied P nl entry hnl hentry
  obtain ⟨hWr, hWc, -, -⟩ := hW
  obtain ⟨hxr, hxc, -, -⟩ := hx
  obtain ⟨hyr, hyc, hydr, hydc⟩ := hy
  have hcond : y.rows = W.v.rows ∧ y.cols = x.cols ∧ (x.rows : Int) = (W.v.cols : Int) - 1 := by
    refine ⟨?_, ?_, ?_⟩
    · simp [Batch.rows, hyr, hWr]
    · simp [Batch.cols, hyc, hxc]
    · simp only [Batch.rows, hxr, hWc]
      omega
  have haff : ∀ i b, (((W.v.slice 0 1 W.v.rows (W.v.cols - 1)).contract10 x.v).add
      (W.v.chip01.reshapeBroadcastCols W.v.rows x.v.cols)).get i b
        = ∑ j in range (m - 1), W.v.get i (j + 1) * x.v.get j b + W.v.get i 0 := by
    intro i b
    simp [Tensor2.add, Tensor2.contract10, Tensor2.slice, Tensor2.chip01,
      Tensor1.reshapeBroadcastCols, hWc, add_comm 1]
  have hlin : forward_lin1 y W x
      = some (Batch.mk (y.v.assign (((W.v.slice 0 1 W.v.rows (W.v.cols - 1)).contract10
          x.v).add (W.v.chip01.reshapeBroadcastCols W.v.rows x.v.cols))) y.d, W, x) := by
    unfold forward_lin1
    dsimp only
    rw [if_pos hcond]
  have hrun : forward_full1 P y W x nl
      = some (Batch.mk (Tensor2.mk y.v.rows y.v.cols (fun i j => f
          ((((W.v.slice 0 1 W.v.rows (W.v.cols - 1)).contract10 x.v).add
            (W.v.chip01.reshapeBroadcastCols W.v.rows x.v.cols)).get i j))) y.d, W, x) := by
    unfold forward_full1
    rw [hlin]
    simp only [Option.bind_eq_bind, Option.some_bind, hnon]
    rfl
  have halt : forward_full1_alt P y W x nl
      = some (Batch.mk (Tensor2.mk y.v.rows y.v.cols (fun i j => entry.nonlin
          ((((W.v.slice 0 1 W.v.rows (W.v.cols - 1)).contract10 x.v).add
            (W.v.chip01.reshapeBroadcastCols W.v.rows x.v.cols)).get i j))) y.d, W, x) := by
    unfold forward_full1_alt
    dsimp only
    rw [if_pos hnl, hentry]
    simp only [Option.bind_eq_bind, Option.some_bind]
    rw [if_pos hcond]
    rfl
  refine ⟨f, hcodes, fun t s => ⟨_, hnon t s, fun _ _ => rfl⟩, ?_, ?_⟩
  · refine ⟨_, _, hrun, rfl, ?_, halt, rfl, ?_, ?_, ?_⟩
    · intro i b _ _
      show f _ = f _
      rw [haff]
    · intro i b _ _
      show entry.nonlin _ = entry.nonlin _
      rw [haff]
    · intro i b _ _ he
      show f _ = entry.nonlin _
      rw [haff]
      exact he
    · intro h
      have hf : f = entry.nonlin := by
        rcases h with h | h | h
        · exact hsame (Or.inl h)
        · exact hsame (Or.inr h)
        · exact funext h
      rw [hrun, halt, hf]
  · have htemp : (y.v.unaryExpr entry.yderiv).mul y.d
        = Tensor2.mk y.d.rows y.d.cols
            (fun i j => entry.yderiv (y.v.get i j) * y.d.get i j) := by
      simp [Tensor2.unaryExpr, Tensor2.mul, hyr, hyc, hydr, hydc]
    have hrunb : backward_full1 y W x nl
        = some (backward_lin1 (Batch.mk y.v (Tensor2.mk y.d.rows y.d.cols
            (fun i j => entry.yderiv (y.v.get i j) * y.d.get i j))) W x) := by
      unfold backward_full1
      rw [backward_nonlin_table P y nl entry hnl hentry]
      rfl
    refine ⟨_, _, _, hrunb, rfl, fun i b _ _ => rfl, rfl, ?_⟩
    unfold backward_full1_alt
    dsimp only
    rw [if_pos hnl, hentry]
    simp only [Option.bind_eq_bind, Option.some_bind]
    rw [htemp]
    rfl

/-- C19 amended, at `exY`, `exW`, `exX` with the sigmoid code over `numSat`: at `[0,0]` the
affine value is `14`, inside the range where the saturating sigmoid and Eigen's agree, and
both branches of the forward write `15/16`; both branches of the backward return the same
`W` and `x`, the enabled one with `y.d[0,0]` rewritten from `1` to `7 * (1 - 7) * 1 = -42`. -/
theorem full1_enabled_agrees_with_alternate_witness :
    (∃ y1 yA : Batch ℚ, forward_full1 numSat exY exW exX 1 = some (y1, exW, exX) ∧
      forward_full1_alt numSat exY exW exX 1 = some (yA, exW, exX) ∧
      y1.v.get 0 0 = 15 / 16 ∧ yA.v.get 0 0 = 15 / 16) ∧
    (∃ (y1 : Batch ℚ) (W1 : Params ℚ) (x1 : Batch ℚ),
      backward_full1 exY exW exX 1 = some (y1, W1, x1) ∧
      backward_full1_alt numSat exY exW exX 1 = some (exY, W1, x1) ∧ y1.d.get 0 0 = -42) := by
  obtain ⟨f, hcodes, -, ⟨y1, yA, hf, -, hv, hfa, -, -, hagree, -⟩,
      ⟨y2, W1, x1, hb, -, hd, -, hba⟩⟩ :=
    full1_enabled_agrees_with_alternate numSat exY exW exX 1
      ((nonlinearities numSat).get ⟨1, by decide⟩) 2 3 2 (by decide)
      ⟨rfl, rfl, rfl, rfl⟩ ⟨rfl, rfl, rfl, rfl⟩ ⟨rfl, rfl, rfl, rfl⟩ (by decide) rfl
  have hfe : f = numSat.esigmoid := hcodes.2.1 rfl
  subst hfe
  have hpre : ∑ j in range (3 - 1), exW.v.get 0 (j + 1) * exX.v.get j 0 + exW.v.get 0 0
      = 14 := by
    norm_num [exW, exX, Finset.sum_range_succ]
  have hsame : numSat.esigmoid
        (∑ j in range (3 - 1), exW.v.get 0 (j + 1) * exX.v.get j 0 + exW.v.get 0 0)
      = ((nonlinearities numSat).get ⟨1, by decide⟩).nonlin
        (∑ j in range (3 - 1), exW.v.get 0 (j + 1) * exX.v.get j 0 + exW.v.get 0 0) := by
    rw [hpre]
    norm_num [nonlinearities, numSat, limexpQ, expQ]
  have e1 : y1.v.get 0 0 = 15 / 16 := by
    rw [hv 0 0 (by decide) (by decide), hpre]
    norm_num [numSat, expQ]
  refine ⟨⟨y1, yA, hf, hfa, e1, ?_⟩, ⟨y2, W1, x1, hb, hba, ?_⟩⟩
  · rw [← hagree 0 0 (by decide) (by decide) hsame]
    exact e1
  · rw [hd 0 0 (by decide) (by decide)]
    norm_num [nonlinearities, exY]

end FullTheorems

section FrameLemmas

/-- Replacing an element of a sequence by a batch with the same value tensor keeps the
list of value tensors. -/
theorem map_v_set_same (l : Sequence R) (i : Nat) (e e1 : Batch R) (h : l[i]? = some e)
    (hv : e1.v = e.v) : (l.set i e1).map Batch.v = l.map Batch.v := by
  apply List.ext_getElem?
  intro n
  rw [List.getElem?_map, List.getElem?_map, List.getElem?_set]
  by_cases hn : i = n
  · subst hn
    have hlt : i < l.length := (List.getElem?_eq_some.mp h).1
    rw [if_pos rfl, if_pos hlt, h, Option.map_some', Option.map_some', hv]
  · rw [if_neg hn]

variable [CommRing R]

/-- One step of the loop of `backward_reverse` keeps the list of value tensors. -/
theorem backward_reverse_step_values (y : Sequence R) (N : Nat)
    (acc acc1 : Sequence R) (i : Nat) (h : backward_reverse_step y N acc i = some acc1) :
    acc1.map Batch.v = acc.map Batch.v := by
  unfold backward_reverse_step at h
  cases hy : y[i]? with
  | none => simp [hy] at h
  | some yi =>
    cases hx : acc[N - i - 1]? with
    | none => simp [hy, hx] at h
    | some xt =>
      simp only [hy, hx, Option.bind_eq_bind, Option.some_bind, Option.pure_def,
        Option.some.injEq] at h
      rw [← h]
      exact map_v_set_same acc (N - i - 1) xt _ hx rfl

/-- The loop of `backward_reverse` keeps the list of value tensors. -/
theorem backward_reverse_fold_values (y : Sequence R) (N : Nat) (l : List Nat) :
    ∀ acc acc1 : Sequence R, l.foldlM (backward_reverse_step y N) acc = some acc1 →
      acc1.map Batch.v = acc.map Batch.v := by
  induction l with
  | nil =>
    intro acc acc1 h
    simp only [List.foldlM_nil, Option.pure_def, Option.some.injEq] at h
    rw [h]
  | cons i l ih =>
    intro acc acc1 h
    rw [List.foldlM_cons] at h
    cases hs : backward_reverse_step y N acc i with
    | none => simp [hs] at h
    | some acc2 =>
      simp only [hs, Option.bind_eq_bind, Option.some_bind] at h
      rw [ih acc2 acc1 h, backward_reverse_step_values y N acc acc2 i hs]

end FrameLemmas

section FrameTheorems
variable [LinearOrderedField R]

/-- C20 as stated fails for `forward_reverse`: it assigns whole batches, so the gradient
of the destination element `y[0]`, `0` before the call, is `30` after it, the gradient of
`x[2]`. -/
theorem forward_reverse_copies_gradient_counterexample :
    ∃ (y1 : Sequence ℚ) (e0 e1 : Batch ℚ),
      forward_reverse exSeq0 exSeq3 = some (y1, exSeq3) ∧
      exSeq0[0]? = some e0 ∧ y1[0]? = some e1 ∧ e0.d.get 0 0 = 0 ∧ e1.d.get 0 0 = 30 :=
  ⟨[Batch.const 1 1 3 30, Batch.const 1 1 2 20, Batch.const 1 1 1 10],
    Batch.const 1 1 0 0, Batch.const 1 1 3 30, rfl, rfl, rfl, rfl, rfl⟩

/-- C20, amended: forward calls other than `forward_reverse` write only the value of
their output, and backward calls write only gradients.  Whenever `forward_nonlin`,
`forward_lin1`, `forward_full1`, `forward_softmax`, `forward_stack`,
`forward_stack_delay`, `forward_statemem`, `forward_gate` or `forward_nonlingate`
completes, the gradient of its output is as before and every other argument is returned
as it was; `forward_reverse` returns its source sequence as it was, and its destination
element `y[N-1-i]` is the whole batch `x[i]`, value and gradient.  Whenever a backward primitive completes, the value tensor of
every argument batch, parameter block and sequence element is as before. -/
theorem forward_writes_values_backward_writes_gradients (P : Numerics R)
    (fresh : Nat → Nat → Batch R) (y x z out state go ci gi gf : Batch R) (W : Params R)
    (seq seq2 : Sequence R) (last nl : Int) :
    ((∀ res, forward_nonlin P y x nl = some res → res.1.d = y.d ∧ res.2 = x) ∧
     (∀ res, forward_lin1 y W x = some res → res.1.d = y.d ∧ res.2 = (W, x)) ∧
     (∀ res, forward_full1 P y W x nl = some res → res.1.d = y.d ∧ res.2 = (W, x)) ∧
     (∀ res, forward_softmax P z W x = some res → res.1.d = z.d ∧ res.2 = (W, x)) ∧
     (∀ res, forward_stack z x y = some res → res.1.d = z.d ∧ res.2 = (x, y)) ∧
     (∀ res, forward_stack_delay z x seq last = some res →
       res.1.d = z.d ∧ res.2 = (x, seq)) ∧
     (∀ res, forward_statemem state ci gi seq last gf = some res →
       res.1.d = state.d ∧ res.2 = (ci, gi, seq, gf)) ∧
     ((forward_gate out state go).1.d = out.d ∧ (forward_gate out state go).2 = (state, go)) ∧
     (∀ res, forward_nonlingate P fresh out state go nl = some res →
       res.1.d = out.d ∧ res.2 = (state, go)) ∧
     (∀ res, forward_reverse seq2 seq = some res → res.2 = seq ∧
       (seq2.length = seq.length →
         ∀ i, i < seq.length → res.1[seq.length - 1 - i]? = seq[i]?))) ∧
    ((∀ res, backward_nonlin y nl = some res → res.v = y.v) ∧
     (∀ res, backward_nonlin2 y x nl = some res → res.1.v = y.v ∧ res.2.v = x.v) ∧
     ((backward_lin1 y W x).1.v = y.v ∧ (backward_lin1 y W x).2.1.v = W.v ∧
       (backward_lin1 y W x).2.2.v = x.v) ∧
     (∀ res, backward_full1 y W x nl = some res →
       res.1.v = y.v ∧ res.2.1.v = W.v ∧ res.2.2.v = x.v) ∧
     ((backward_softmax z W x).1.v = z.v ∧ (backward_softmax z W x).2.1.v = W.v ∧
       (backward_softmax z W x).2.2.v = x.v) ∧
     ((backward_stack z x y).1.v = z.v ∧ (backward_stack z x y).2.1.v = x.v ∧
       (backward_stack z x y).2.2.v = y.v) ∧
     (∀ res, backward_stack_delay z x seq last = some res →
       res.1.v = z.v ∧ res.2.1.v = x.v ∧ res.2.2.map Batch.v = seq.map Batch.v) ∧
     (∀ res, backward_reverse seq2 seq = some res →
       res.1.map Batch.v = seq2.map Batch.v ∧ res.2.map Batch.v = seq.map Batch.v) ∧
     (∀ res, backward_statemem state ci gi seq last gf = some res →
       res.1.v = state.v ∧ res.2.1.v = ci.v ∧ res.2.2.1.v = gi.v ∧
       res.2.2.2.1.map Batch.v = seq.map Batch.v ∧ res.2.2.2.2.v = gf.v) ∧
     ((backward_gate out state go).1.v = out.v ∧ (backward_gate out state go).2.1.v = state.v ∧
       (backward_gate out state go).2.2.v = go.v) ∧
     (∀ res, backward_nonlingate P fresh out state go nl = some res →
       res.1.v = out.v ∧ res.2.1.v = state.v ∧ res.2.2.v = go.v)) := by
  have hfn : ∀ (a b : Batch R) res, forward_nonlin P a b nl = some res →
      res.1.d = a.d ∧ res.2 = b := by
    intro a b res h
    unfold forward_nonlin at h
    split_ifs at h <;> (rw [← Option.some.inj h]; exact ⟨rfl, rfl⟩)
  have hbn : ∀ (a : Batch R) res, backward_nonlin a nl = some res → res.v = a.v := by
    intro a res h
    unfold backward_nonlin at h
    split_ifs at h <;> (rw [← Option.some.inj h]; rfl)
  have hbn2 : ∀ (a b : Batch R) res, backward_nonlin2 a b nl = some res →
      res.1 = a ∧ res.2.v = b.v := by
    intro a b res h
    unfold backward_nonlin2 at h
    split_ifs at h <;> (rw [← Option.some.inj h]; exact ⟨rfl, rfl⟩)
  have hlin : ∀ res, forward_lin1 y W x = some res → res.1.d = y.d ∧ res.2 = (W, x) := by
    intro res h
    unfold forward_lin1 at h
    dsimp only at h
    split_ifs at h
    rw [← Option.some.inj h]
    exact ⟨rfl, rfl⟩
  refine ⟨⟨hfn y x, hlin, ?_, ?_, ?_, ?_, ?_, ⟨rfl, rfl⟩, ?_, ?_⟩,
    ⟨hbn y, ?_, ⟨rfl, rfl, rfl⟩, ?_, ⟨rfl, rfl, rfl⟩, ⟨rfl, rfl, rfl⟩, ?_, ?_, ?_,
      ⟨rfl, rfl, rfl⟩, ?_⟩⟩
  · intro res h
    unfold forward_full1 at h
    cases hl : forward_lin1 y W x with
    | none => simp [hl] at h
    | some r1 =>
      obtain ⟨y1, W2, x1⟩ := r1
      obtain ⟨hd, hrest⟩ := hlin _ hl
      cases hn : forward_nonlin P y1 y1 nl with
      | none => simp [hl, hn] at h
      | some r2 =>
        obtain ⟨hd2, -⟩ := hfn _ _ _ hn
        simp only [hl, hn, Option.bind_eq_bind, Option.some_bind, Option.pure_def,
          Option.some.injEq] at h
        rw [← h]
        exact ⟨hd2.trans hd, hrest⟩
  · intro res h
    unfold forward_softmax at h
    dsimp only at h
    split_ifs at h
    rw [← Option.some.inj h]
    exact ⟨rfl, rfl⟩
  · intro res h
    unfold forward_stack at h
    dsimp only at h
    split_ifs at h
    rw [← Option.some.inj h]
    exact ⟨rfl, rfl⟩
  · intro res h
    unfold forward_stack_delay Sequence.rows Sequence.cols at h
    cases hy0 : seq[0]? with
    | none => simp [hy0] at h
    | some y0 =>
      simp only [hy0, Option.bind_eq_bind, Option.some_bind, Option.map_some'] at h
      split_ifs at h with hc h0
      · cases hyl : seq[last.toNat]? with
        | none => simp [hyl] at h
        | some yl =>
          simp only [hyl, Option.some_bind, Option.pure_def, Option.some.injEq] at h
          rw [← h]
          exact ⟨rfl, rfl⟩
      · simp only [Option.pure_def, Option.some.injEq] at h
        rw [← h]
        exact ⟨rfl, rfl⟩
  · intro res h
    unfold forward_statemem at h
    by_cases h0 : 0 ≤ last
    · cases hp : seq[last.toNat]? with
      | none => simp [h0, hp] at h
      | some prev =>
        simp only [h0, hp, if_true, Option.map_some', Option.bind_eq_bind, Option.some_bind,
          Option.pure_def, Option.some.injEq] at h
        rw [← h]
        exact ⟨rfl, rfl⟩
    · simp only [h0, if_false, Option.bind_eq_bind, Option.some_bind, Option.pure_def,
        Option.some.injEq] at h
      rw [← h]
      exact ⟨rfl, rfl⟩
  · intro res h
    unfold forward_nonlingate at h
    dsimp only at h
    cases hn : forward_nonlin P (fresh out.rows out.cols) state nl with
    | none => simp [hn] at h
    | some r1 =>
      obtain ⟨-, hs⟩ := hfn _ _ _ hn
      simp only [hn, Option.bind_eq_bind, Option.some_bind, Option.pure_def,
        Option.some.injEq] at h
      rw [← h]
      exact ⟨rfl, by rw [hs]; rfl⟩
  · intro res h
    refine ⟨?_, ?_⟩
    · unfold forward_reverse at h
      dsimp only at h
      cases hf : List.foldlM (forward_reverse_step seq seq.length) seq2
          (List.range seq.length) with
      | none => simp [hf] at h
      | some y1 =>
        simp only [hf, Option.bind_eq_bind, Option.some_bind, Option.pure_def,
          Option.some.injEq] at h
        rw [← h]
    · intro hlen i hi
      obtain ⟨y1, hrun, -, hget⟩ := forward_reverse_run seq2 seq hlen
      rw [hrun] at h
      rw [← Option.some.inj h]
      show y1[seq.length - 1 - i]? = seq[i]?
      rw [hget _ (by omega)]
      congr 1
      omega
  · intro res h
    obtain ⟨h1, h2⟩ := hbn2 y x res h
    exact ⟨by rw [h1], h2⟩
  · intro res h
    unfold backward_full1 at h
    cases hb : backward_nonlin y nl with
    | none => simp [hb] at h
    | some y1 =>
      simp only [hb, Option.bind_eq_bind, Option.some_bind, Option.pure_def,
        Option.some.injEq] at h
      rw [← h]
      exact ⟨hbn y y1 hb, rfl, rfl⟩
  · intro res h
    unfold backward_stack_delay at h
    cases hy0 : seq[0]? with
    | none => simp [hy0] at h
    | some y0 =>
      simp only [hy0, Option.bind_eq_bind, Option.some_bind] at h
      split_ifs at h with h0
      · cases hyl : seq[last.toNat]? with
        | none => simp [hyl] at h
        | some yl =>
          simp only [hyl, Option.some_bind, Option.pure_def, Option.some.injEq] at h
          rw [← h]
          exact ⟨rfl, rfl, map_v_set_same seq last.toNat yl _ hyl rfl⟩
      · simp only [Option.pure_def, Option.some.injEq] at h
        rw [← h]
        exact ⟨rfl, rfl, rfl⟩
  · intro res h
    unfold backward_reverse at h
    dsimp only at h
    cases hf : List.foldlM (backward_reverse_step seq2 seq.length) seq
        (List.range seq.length) with
    | none => simp [hf] at h
    | some x1 =>
      simp only [hf, Option.bind_eq_bind, Option.some_bind, Option.pure_def,
        Option.some.injEq] at h
      rw [← h]
      exact ⟨rfl, backward_reverse_fold_values seq2 seq.length _ seq x1 hf⟩
  · intro res h
    by_cases h0 : 0 ≤ last
    · cases hp : seq[last.toNat]? with
      | none => simp [backward_statemem, h0, hp] at h
      | some prev =>
        rw [backward_statemem_run state ci gi gf seq last prev h0 hp] at h
        rw [← Option.some.inj h]
        exact ⟨rfl, rfl, rfl, map_v_set_same seq last.toNat prev _ hp rfl, rfl⟩
    · rw [backward_statemem_first state ci gi gf seq last (by omega)] at h
      rw [← Option.some.inj h]
      exact ⟨rfl, rfl, rfl, rfl, rfl⟩
  · intro res h
    unfold backward_nonlingate at h
    dsimp only at h
    cases hn : forward_nonlin P (fresh out.rows out.cols) state nl with
    | none => simp [hn] at h
    | some r1 =>
      obtain ⟨-, hs⟩ := hfn _ _ _ hn
      cases hb : backward_nonlin2 (backward_gate out r1.1 go).2.1 r1.2 nl with
      | none => simp [hn, hb] at h
      | some r2 =>
        obtain ⟨-, hv⟩ := hbn2 _ _ _ hb
        simp only [hn, hb, Option.bind_eq_bind, Option.some_bind, Option.pure_def,
          Option.some.injEq] at h
        rw [← h]
        exact ⟨rfl, by rw [hv, hs], rfl⟩

/-- C20 amended, at `forward_stack` on `exZ`, `exX`, `exY`: the call completes, the
gradient of `z` is as before and `x`, `y` are returned as they were. -/
theorem forward_writes_values_backward_writes_gradients_witness :
    ∃ res, forward_stack exZ exX exY = some res ∧ res.1.d = exZ.d ∧ res.2 = (exX, exY) := by
  obtain ⟨res, hres⟩ := Option.isSome_iff_exists.mp
    (show (forward_stack exZ exX exY).isSome = true from rfl)
  exact ⟨res, hres, (forward_writes_values_backward_writes_gradients numQ freshQ exY exX exZ
    exY exX exX exX exX exX exW exSeq exSeq0 0 1).1.2.2.2.2.1 res hres⟩

end FrameTheorems

end ocropus
